import Mathlib

set_option maxHeartbeats 1000000
set_option maxRecDepth 100000

/-!
Verification development for the Sudoku CSP solver in
`cmput366/assignment/assignment2/starter/main.py` (classes `Grid`, `VarSelector`,
`FirstAvailable`, `MRV`, `AC3`, `Backtracking`).

A cell domain is the Python string stored in one entry of `Grid._cells`,
modelled as `List Char`; the whole matrix `_cells` is `List (List (List Char))`.
Machine recursion that Python performs with in-place loops is rendered as
structural recursion over explicit coordinate lists, so that every definition
is executable and kernel-evaluable on concrete grids.
-/

/-- A cell domain: one entry of the matrix `Grid._cells` (a Python string). -/
abbrev Domain := List Char

/-- The matrix `Grid._cells`. -/
abbrev Cells := List (List Domain)

/-- `Grid._complete_domain = "123456789"`. -/
def complete_domain : Domain := ['1', '2', '3', '4', '5', '6', '7', '8', '9']

/-- `Grid._width = 9` (set in `Grid.__init__`, never changed). -/
def width : Nat := 9

/-- Reading `grid.get_cells()[i][j]`, made total with default `[]` when an
index is absent.  (The faithful partial reading that models Python's
`IndexError` is `getCellO` below.) -/
def cellD (g : Cells) (i j : Nat) : Domain := (g.getD i []).getD j []

/-- Writing `grid.get_cells()[i][j] = d` (a no-op out of range, like
`List.set`). -/
def setCell (g : Cells) (i j : Nat) (d : Domain) : Cells :=
  g.set i ((g.getD i []).set j d)

/-- Reading `grid.get_cells()[i][j]` exactly as Python does: `none` models the
`IndexError` raised when the matrix has no row `i` or no column `j`. -/
def getCellO (g : Cells) (i j : Nat) : Option Domain :=
  g[i]?.bind fun r => r[j]?

/-- The row-major list of coordinates `(i, j)` for `i, j < 9`: the iteration
space of the double loops `for i in range(self._width): for j in range(...)`. -/
def allCoords : List (Nat × Nat) :=
  (List.range width).flatMap fun i => (List.range width).map fun j => (i, j)

/-- The matrix has exactly 9 rows of exactly 9 domains (the state produced by
`read_file` on an 81-character puzzle string). -/
def Shape9 (g : Cells) : Prop := g.length = 9 ∧ ∀ r ∈ g, r.length = 9

instance : DecidablePred Shape9 := fun g => by
  unfold Shape9; infer_instance

/-- Fuel-indexed engine for Python's `str.replace(old, '')`: scan left to
right, drop each non-overlapping occurrence of `old`.  The fuel is an upper
bound on the number of scanned characters; `pyReplace` supplies `s.length`,
which always suffices. -/
def pyReplaceF : Nat → List Char → List Char → List Char
  | 0, s, _ => s
  | fuel + 1, s, old =>
    match s with
    | [] => []
    | c :: rest =>
      if old ≠ [] ∧ old.isPrefixOf (c :: rest) then
        pyReplaceF fuel ((c :: rest).drop old.length) old
      else
        c :: pyReplaceF fuel rest old

/-- Python's `s.replace(old, '')` on domain strings. -/
def pyReplace (s old : List Char) : List Char := pyReplaceF s.length s old

/-- `Grid.is_solved`: `True` iff every entry of the 9×9 iteration space has a
domain of length 1 (total rendering; `is_solvedO` is the partial one). -/
def is_solved (g : Cells) : Bool :=
  allCoords.all fun p => (cellD g p.1 p.2).length == 1

/-- Scanning loop of `FirstAvailable.select_variable`: return the first
coordinate whose domain is larger than one. -/
def faGo (g : Cells) : List (Nat × Nat) → Option (Nat × Nat)
  | [] => none
  | p :: rest => if 1 < (cellD g p.1 p.2).length then some p else faGo g rest

namespace FirstAvailable

/-- `FirstAvailable.select_variable`. -/
def select_variable (g : Cells) : Option (Nat × Nat) := faGo g allCoords

end FirstAvailable

/-- Scanning loop of `MRV.select_variable`, carrying the Python locals
`remain_value` and `variable`.  The two consecutive `if` statements of the
source collapse: after the first one fires, `len < remain_value` is false. -/
def mrvGo (g : Cells) : List (Nat × Nat) → Option Nat → Option (Nat × Nat) → Option (Nat × Nat)
  | [], _, var => var
  | p :: rest, rv, var =>
    if 1 < (cellD g p.1 p.2).length then
      match rv with
      | none => mrvGo g rest (some (cellD g p.1 p.2).length) (some p)
      | some r =>
        if (cellD g p.1 p.2).length < r then
          mrvGo g rest (some (cellD g p.1 p.2).length) (some p)
        else
          mrvGo g rest (some r) var
    else mrvGo g rest rv var

namespace MRV

/-- `MRV.select_variable`. -/
def select_variable (g : Cells) : Option (Nat × Nat) := mrvGo g allCoords none none

end MRV

/-- Result of one `remove_domain_*` call: the Python pair
`(variables_assigned, contradiction)` — `assigned = none` renders the Python
`None` returned on contradiction — together with the grid as mutated so far. -/
structure RemoveResult where
  assigned : Option (List (Nat × Nat))
  contradiction : Bool
  cells : Cells
deriving Repr, DecidableEq

/-- Shared loop body of `AC3.remove_domain_row` / `_column` / `_unit`: walk the
given peer-coordinate list; at each peer `p`, compute
`new_domain = cells[p].replace(cells[row][column], '')`; return
`(None, True)` at once if it is empty; otherwise record `p` when its domain
dropped from more than 1 to exactly 1, store `new_domain`, and continue.
The value removed is re-read from `(row, column)` at every step, exactly as
the source expression does. -/
def removeFrom (g : Cells) (row column : Nat) : List (Nat × Nat) → RemoveResult
  | [] => ⟨some [], false, g⟩
  | p :: rest =>
    let old := cellD g p.1 p.2
    let new_domain := pyReplace old (cellD g row column)
    if new_domain.length = 0 then ⟨none, true, g⟩
    else
      let r := removeFrom (setCell g p.1 p.2 new_domain) row column rest
      ⟨r.assigned.map fun as =>
          (if new_domain.length = 1 ∧ 1 < old.length then [p] else []) ++ as,
        r.contradiction, r.cells⟩

/-- Peer list scanned by `remove_domain_row`:
`for j in range(width): if j != column`. -/
def rowPeers (row column : Nat) : List (Nat × Nat) :=
  ((List.range width).filter fun j => j ≠ column).map fun j => (row, j)

/-- Peer list scanned by `remove_domain_column`:
`for j in range(width): if j != row`, touching cell `(j, column)`. -/
def colPeers (row column : Nat) : List (Nat × Nat) :=
  ((List.range width).filter fun j => j ≠ row).map fun j => (j, column)

/-- Peer list scanned by `remove_domain_unit`: the 3×3 box of `(row, column)`
minus the cell itself. -/
def unitPeers (row column : Nat) : List (Nat × Nat) :=
  ((List.range 3).flatMap fun a =>
      (List.range 3).map fun b => (row / 3 * 3 + a, column / 3 * 3 + b)).filter
    fun p => ¬(p.1 = row ∧ p.2 = column)

/-- `AC3.remove_domain_row`. -/
def remove_domain_row (g : Cells) (row column : Nat) : RemoveResult :=
  removeFrom g row column (rowPeers row column)

/-- `AC3.remove_domain_column`. -/
def remove_domain_column (g : Cells) (row column : Nat) : RemoveResult :=
  removeFrom g row column (colPeers row column)

/-- `AC3.remove_domain_unit`. -/
def remove_domain_unit (g : Cells) (row column : Nat) : RemoveResult :=
  removeFrom g row column (unitPeers row column)

/-- Fuel-indexed rendering of the `while Q:` loop of `AC3.consistency`.
`Q.pop()` pops the LAST element of a Python list; the three removals run in
sequence on the successively mutated grid; if any reports contradiction the
method returns `False`, else the newly singleton coordinates are appended and
the loop continues; an exhausted queue returns `True`.  `none` means the fuel
ran out (the termination theorem shows a computable bound always suffices). -/
def consistencyF : Nat → Cells → List (Nat × Nat) → Option (Bool × Cells)
  | 0, _, _ => none
  | fuel + 1, g, Q =>
    if hQ : Q = [] then some (true, g)
    else
      let v := Q.getLast hQ
      let r1 := remove_domain_row g v.1 v.2
      let r2 := remove_domain_column r1.cells v.1 v.2
      let r3 := remove_domain_unit r2.cells v.1 v.2
      if r1.contradiction || r2.contradiction || r3.contradiction then
        some (false, r3.cells)
      else
        consistencyF fuel r3.cells
          (Q.dropLast ++ r1.assigned.getD [] ++ r2.assigned.getD [] ++ r3.assigned.getD [])

/-- Total number of excess candidates of the 9×9 window: the sum over all 81
cells of `length - 1`.  Every propagation step strictly shrinks
`Q.length + totalExcess`, which yields the fuel bound. -/
def totalExcess (g : Cells) : Nat :=
  (allCoords.map fun p => (cellD g p.1 p.2).length - 1).sum

/-- A fuel that provably always suffices for `consistencyF`. -/
def consistencyBound (g : Cells) (Q : List (Nat × Nat)) : Nat :=
  Q.length + totalExcess g + 1

/-- `AC3.consistency` as a total function, run with the provably sufficient
fuel (the fallback branch is shown unreachable by the termination theorem). -/
def consistencyT (g : Cells) (Q : List (Nat × Nat)) : Bool × Cells :=
  (consistencyF (consistencyBound g Q) g Q).getD (true, g)

/-- The initial queue built by `AC3.pre_process_consistency`: all coordinates
whose domain already has size 1, in row-major order. -/
def initialQ (g : Cells) : List (Nat × Nat) :=
  allCoords.filter fun p => (cellD g p.1 p.2).length = 1

/-- `AC3.pre_process_consistency`: seed the queue with every determined cell
and run `consistency`; the Bool is the value returned as `success` (the grid
is mutated in place in Python, so the pair carries it). -/
def pre_process_consistency (g : Cells) : Bool × Cells :=
  consistencyT g (initialQ g)

/-- The `for value in grid.get_cells()[v0][v1]:` loop body of
`Backtracking.search`, with `rec` standing for the recursive call at the next
depth.  For each candidate: copy the grid, overwrite the chosen cell with the
singleton candidate, run `consistency` seeded with `[v]`; on success recurse
and propagate a non-`False` answer upward; otherwise fall through to the next
candidate (line 372's `replace` call discards its result, mutating nothing).
`some none` is Python's `return False`; an outer `none` propagates
fuel exhaustion. -/
def tryVals (rec : Cells → Option (Option Cells)) (g : Cells) (v : Nat × Nat) :
    List Char → Option (Option Cells)
  | [] => some none
  | value :: rest =>
    let grid_copy := setCell g v.1 v.2 [value]
    let res := consistencyT grid_copy [v]
    if res.1 then
      match rec res.2 with
      | none => none
      | some (some rb) => some (some rb)
      | some none => tryVals rec g v rest
    else tryVals rec g v rest

/-- Fuel-indexed rendering of `Backtracking.search`: return the grid if it is
solved, otherwise select a variable and try its candidates.  The `sel = none`
branch also yields `none` (Python would subscript `None` and crash there);
the fuel only bounds recursion depth, and `totalExcess g + 1` suffices. -/
def searchF (sel : Cells → Option (Nat × Nat)) : Nat → Cells → Option (Option Cells)
  | 0, _ => none
  | fuel + 1, g =>
    if is_solved g then some (some g)
    else
      match sel g with
      | none => none
      | some v => tryVals (searchF sel fuel) g v (cellD g v.1 v.2)

/-- `Backtracking.search` as a total function (`none` = Python's `False`). -/
def searchT (sel : Cells → Option (Nat × Nat)) (g : Cells) : Option Cells :=
  (searchF sel (totalExcess g + 1) g).getD none

/-! ### Facts about `removeFrom` (the shared body of the three removal loops) -/

/-- The `new_domain` expression of the removal loops, at peer `p`. -/
def newDomainAt (g : Cells) (row column : Nat) (p : Nat × Nat) : Domain :=
  pyReplace (cellD g p.1 p.2) (cellD g row column)

/-! ### Predicates on grids, peers, and queues -/

/-- `(row, column)` coordinates inside the 9×9 board. -/
def InRange9 (p : Nat × Nat) : Prop := p.1 < 9 ∧ p.2 < 9

instance (p : Nat × Nat) : Decidable (InRange9 p) := by
  unfold InRange9; infer_instance

/-- Two coordinates share a row, a column, or a 3×3 box. -/
def SameUnit (a b : Nat × Nat) : Prop :=
  a.1 = b.1 ∨ a.2 = b.2 ∨ (a.1 / 3 = b.1 / 3 ∧ a.2 / 3 = b.2 / 3)

instance (a b : Nat × Nat) : Decidable (SameUnit a b) := by
  unfold SameUnit; infer_instance

/-- Distinct coordinates constrained by a common row, column, or box. -/
def Peers (a b : Nat × Nat) : Prop := a ≠ b ∧ SameUnit a b

instance (a b : Nat × Nat) : Decidable (Peers a b) := by
  unfold Peers; infer_instance

/-- No two peers both carry the same singleton domain. -/
def PeerDistinct (g : Cells) : Prop :=
  ∀ a ∈ allCoords, ∀ b ∈ allCoords, Peers a b →
    (cellD g a.1 a.2).length = 1 → cellD g a.1 a.2 ≠ cellD g b.1 b.2

instance (g : Cells) : Decidable (PeerDistinct g) := by
  unfold PeerDistinct; infer_instance

/-- Any same-singleton peer pair still has a member waiting in the queue. -/
def QInv (g : Cells) (Q : List (Nat × Nat)) : Prop :=
  ∀ a ∈ allCoords, ∀ b ∈ allCoords, Peers a b →
    (cellD g a.1 a.2).length = 1 → cellD g a.1 a.2 = cellD g b.1 b.2 →
    a ∈ Q ∨ b ∈ Q

instance (g : Cells) (Q : List (Nat × Nat)) : Decidable (QInv g Q) := by
  unfold QInv; infer_instance

/-- All 81 stored domains are non-empty. -/
def DomsNonempty (g : Cells) : Prop := ∀ p ∈ allCoords, cellD g p.1 p.2 ≠ []

instance (g : Cells) : Decidable (DomsNonempty g) := by
  unfold DomsNonempty; infer_instance

/-- All 81 stored domains only hold digit characters `'1'..'9'`. -/
def DomsSub (g : Cells) : Prop :=
  ∀ p ∈ allCoords, ∀ c ∈ cellD g p.1 p.2, c ∈ complete_domain

instance (g : Cells) : Decidable (DomsSub g) := by
  unfold DomsSub; infer_instance

/-- All 81 stored domains are duplicate-free. -/
def DomsNodup (g : Cells) : Prop := ∀ p ∈ allCoords, (cellD g p.1 p.2).Nodup

instance (g : Cells) : Decidable (DomsNodup g) := by
  unfold DomsNodup; infer_instance

/-- Every queued coordinate has a singleton domain. -/
def QSingle (g : Cells) (Q : List (Nat × Nat)) : Prop :=
  ∀ q ∈ Q, (cellD g q.1 q.2).length = 1

instance (g : Cells) (Q : List (Nat × Nat)) : Decidable (QSingle g Q) := by
  unfold QSingle; infer_instance

/-- Every queued coordinate is on the board. -/
def QRange (Q : List (Nat × Nat)) : Prop := ∀ q ∈ Q, q ∈ allCoords

instance (Q : List (Nat × Nat)) : Decidable (QRange Q) := by
  unfold QRange; infer_instance

/-- `S` refines `g` cell by cell: every candidate stored in `S` is still a
candidate in `g`.  For a solved `S` this says `S` extends the givens of `g`. -/
def Contains (g S : Cells) : Prop :=
  ∀ p ∈ allCoords, ∀ x ∈ cellD S p.1 p.2, x ∈ cellD g p.1 p.2

instance (g S : Cells) : Decidable (Contains g S) := by
  unfold Contains; infer_instance

/-! ### One iteration of the propagation loop -/

/-- First removal of a loop iteration of `consistency`. -/
def r1of (g : Cells) (v : Nat × Nat) : RemoveResult := remove_domain_row g v.1 v.2

/-- Second removal, on the grid already mutated by the first. -/
def r2of (g : Cells) (v : Nat × Nat) : RemoveResult :=
  remove_domain_column (r1of g v).cells v.1 v.2

/-- Third removal, on the grid mutated by the first two. -/
def r3of (g : Cells) (v : Nat × Nat) : RemoveResult :=
  remove_domain_unit (r2of g v).cells v.1 v.2

/-- `result1 == True or result2 == True or result3 == True`. -/
def stepContra (g : Cells) (v : Nat × Nat) : Bool :=
  (r1of g v).contradiction || (r2of g v).contradiction || (r3of g v).contradiction

/-- The grid after the three removals of one iteration. -/
def stepCells (g : Cells) (v : Nat × Nat) : Cells := (r3of g v).cells

/-- The queue after one no-contradiction iteration: pop the last element,
append the three `variables_assigned` lists in order. -/
def stepQueue (g : Cells) (v : Nat × Nat) (Q : List (Nat × Nat)) : List (Nat × Nat) :=
  Q.dropLast ++ (r1of g v).assigned.getD [] ++ (r2of g v).assigned.getD [] ++
    (r3of g v).assigned.getD []

/-- What the backtracking driver relies on from a variable selector: a
returned coordinate is an on-board cell with at least two candidates, and on
an unsolved grid with non-empty domains something is returned. -/
def SelSpec (sel : Cells → Option (Nat × Nat)) : Prop :=
  (∀ g v, sel g = some v → v ∈ allCoords ∧ 1 < (cellD g v.1 v.2).length) ∧
  (∀ g, Shape9 g → DomsNonempty g → is_solved g = false → (sel g).isSome)

/-! ### Validity of a solved grid: each unit holds each digit exactly once -/

/-- The nine cells of row `k`. -/
def rowCoords (k : Nat) : List (Nat × Nat) := (List.range 9).map fun j => (k, j)

/-- The nine cells of column `k`. -/
def colCoords (k : Nat) : List (Nat × Nat) := (List.range 9).map fun i => (i, k)

/-- The nine cells of 3×3 box `k` (row-block `k / 3`, column-block `k % 3`). -/
def boxCoords (k : Nat) : List (Nat × Nat) :=
  (List.range 3).flatMap fun a => (List.range 3).map fun b => (k / 3 * 3 + a, k % 3 * 3 + b)

/-- Concatenation of the domains stored in the given cells. -/
def unitChars (g : Cells) (ps : List (Nat × Nat)) : List Char :=
  ps.flatMap fun p => cellD g p.1 p.2

/-- A fully solved, valid Sudoku grid: every domain is a singleton and every
row, column and box holds each digit `1`–`9` exactly once. -/
def ValidSolved (g : Cells) : Prop :=
  is_solved g = true ∧ ∀ k, k < 9 →
    (unitChars g (rowCoords k)).Perm complete_domain ∧
    (unitChars g (colCoords k)).Perm complete_domain ∧
    (unitChars g (boxCoords k)).Perm complete_domain

instance (g : Cells) : Decidable (ValidSolved g) := by
  unfold ValidSolved; infer_instance

/-- The representative digit of a cell (its stored head). -/
def cellVal (g : Cells) (p : Nat × Nat) : Char := (cellD g p.1 p.2).headD '0'

/-!
### A heap model of Python list aliasing for `Grid.copy`

`Grid._cells` is a Python list of row lists; variables hold references.
`Heap.data` stores every row-list object ever allocated, indexed by an id;
a `PyGrid` holds the ids of its nine row objects, mirroring the outer list.
`Grid.copy` (line 58, `[row.copy() for row in self._cells]`) allocates one
fresh row object per row plus a fresh outer list; cell assignment mutates
the addressed row object in place.  Strings are immutable, so domains are
plain values.
-/

/-- All row-list objects, addressed by allocation id. -/
structure Heap where
  data : List (List Domain)

/-- A `Grid` object: the ids of the row objects its `_cells` list holds. -/
structure PyGrid where
  rows : List Nat

/-- Dereference a row object. -/
def readRow (h : Heap) (rid : Nat) : List Domain := h.data.getD rid []

/-- `grid.get_cells()[i][j]` in the heap model. -/
def readCellH (h : Heap) (g : PyGrid) (i j : Nat) : Option Domain :=
  g.rows[i]?.bind fun rid => (readRow h rid)[j]?

/-- `grid.get_cells()[i][j] = d`: mutate row object `g.rows[i]` in place. -/
def writeCellH (h : Heap) (g : PyGrid) (i j : Nat) (d : Domain) : Heap :=
  match g.rows[i]? with
  | none => h
  | some rid => ⟨h.data.set rid ((readRow h rid).set j d)⟩

/-- `Grid.copy`: `copy_grid._cells = [row.copy() for row in self._cells]` —
one fresh row object per row, holding the same domain values. -/
def copyH (h : Heap) (g : PyGrid) : PyGrid × Heap :=
  (⟨(List.range g.rows.length).map fun k => k + h.data.length⟩,
    ⟨h.data ++ g.rows.map (readRow h)⟩)

/-- Every row id the grid holds is allocated. -/
def ValidG (h : Heap) (g : PyGrid) : Prop := ∀ rid ∈ g.rows, rid < h.data.length

/-- Heaps that agree on every object allocated before mark `n`. -/
def agreesBelow (n : Nat) (h h2 : Heap) : Prop :=
  ∀ rid, rid < n → readRow h2 rid = readRow h rid

/-- Line 372 of `Backtracking.search`:
`grid.get_cells()[variable[0]][variable[1]].replace(value, '')` as an
expression statement.  `str.replace` is pure — it builds and returns a new
string, which the statement discards — so the heap component of the
denotation is the incoming heap itself. -/
def failedCandidateLine (h : Heap) (g : PyGrid) (i j : Nat) (value : Char) :
    Option Domain × Heap :=
  ((readCellH h g i j).map fun s => pyReplace s [value], h)

/-- A sequence of cell assignments, each performed through some grid object
(the trial copy, or a deeper copy made by recursion). -/
def applyWriteList (h : Heap) : List (PyGrid × Nat × Nat × Domain) → Heap
  | [] => h
  | w :: rest => applyWriteList (writeCellH h w.1 w.2.1 w.2.2.1 w.2.2.2) rest

/-!
### Partial (IndexError-faithful) renderings of the query operations

On a freshly constructed `Grid`, `_cells` is `[]`; `is_solved` and both
`select_variable`s subscript `self._cells[i][j]` inside their loops, so in
Python they raise `IndexError`.  `none` renders that undefined outcome.
-/

/-- `Grid.is_solved` with Python's partial indexing: scan the 81 positions in
order, return `False` at the first non-singleton, raise (`none`) at the first
absent index. -/
def isSolvedGo (g : Cells) : List (Nat × Nat) → Option Bool
  | [] => some true
  | p :: rest =>
    match getCellO g p.1 p.2 with
    | none => none
    | some d => if d.length ≠ 1 then some false else isSolvedGo g rest

/-- Partial `is_solved`. -/
def is_solvedO (g : Cells) : Option Bool := isSolvedGo g allCoords

/-- Partial scanning loop of `FirstAvailable.select_variable`. -/
def faGoO (g : Cells) : List (Nat × Nat) → Option (Option (Nat × Nat))
  | [] => some none
  | p :: rest =>
    match getCellO g p.1 p.2 with
    | none => none
    | some d => if 1 < d.length then some (some p) else faGoO g rest

/-- Partial `FirstAvailable.select_variable`. -/
def select_variableO_fa (g : Cells) : Option (Option (Nat × Nat)) := faGoO g allCoords

/-- Partial scanning loop of `MRV.select_variable` (scans every cell, so it
raises on the first absent index regardless of what was found before). -/
def mrvGoO (g : Cells) :
    List (Nat × Nat) → Option Nat → Option (Nat × Nat) → Option (Option (Nat × Nat))
  | [], _, var => some var
  | p :: rest, rv, var =>
    match getCellO g p.1 p.2 with
    | none => none
    | some d =>
      if 1 < d.length then
        match rv with
        | none => mrvGoO g rest (some d.length) (some p)
        | some r =>
          if d.length < r then mrvGoO g rest (some d.length) (some p)
          else mrvGoO g rest (some r) var
      else mrvGoO g rest rv var

/-- Partial `MRV.select_variable`. -/
def select_variableO_mrv (g : Cells) : Option (Option (Nat × Nat)) :=
  mrvGoO g allCoords none none

/-! ### Concrete grids used to witness and to refute claims -/

/-- A grid whose 81 domains are all the singleton `"1"`: every domain is a
non-empty subset of the digits, and `is_solved` accepts it. -/
def allOnesGrid : Cells := (List.range 9).map fun _ => (List.range 9).map fun _ => ['1']

/-- A valid solved Sudoku grid. -/
def solvedDemo : Cells := [
  [['4'], ['8'], ['3'], ['9'], ['2'], ['1'], ['6'], ['5'], ['7']],
  [['9'], ['6'], ['7'], ['3'], ['4'], ['5'], ['8'], ['2'], ['1']],
  [['2'], ['5'], ['1'], ['8'], ['7'], ['6'], ['4'], ['9'], ['3']],
  [['5'], ['4'], ['8'], ['1'], ['3'], ['2'], ['9'], ['7'], ['6']],
  [['7'], ['2'], ['9'], ['5'], ['6'], ['4'], ['1'], ['3'], ['8']],
  [['1'], ['3'], ['6'], ['7'], ['9'], ['8'], ['2'], ['4'], ['5']],
  [['3'], ['7'], ['2'], ['6'], ['8'], ['9'], ['5'], ['1'], ['4']],
  [['8'], ['1'], ['4'], ['2'], ['5'], ['3'], ['7'], ['6'], ['9']],
  [['6'], ['9'], ['5'], ['4'], ['1'], ['7'], ['3'], ['8'], ['2']]]

/-- An initial grid whose row 0 pre-assigns the digit `1` twice. -/
def twoOnesGrid : Cells :=
  [['1'], ['1'], complete_domain, complete_domain, complete_domain, complete_domain,
    complete_domain, complete_domain, complete_domain] ::
  (List.range 8).map fun _ => (List.range 9).map fun _ => complete_domain

/-- All structural invariants of C3 bundled: 9×9 shape and non-empty,
duplicate-free, digit-only domains. -/
def GridWF (g : Cells) : Prop :=
  Shape9 g ∧ DomsNonempty g ∧ DomsNodup g ∧ DomsSub g

instance (g : Cells) : Decidable (GridWF g) := by
  unfold GridWF; infer_instance

instance (h : Heap) (g : PyGrid) : Decidable (ValidG h g) := by
  unfold ValidG; infer_instance

/-- A two-row heap-allocated grid used to witness the copy-isolation
theorem. -/
def h0 : Heap := ⟨[[['1']], [['2']]]⟩

def g0 : PyGrid := ⟨[0, 1]⟩

/-- `Grid.__init__`: `self._cells = []` — the cell matrix of a freshly
constructed grid on which `read_file` was never called. -/
def init_cells : Cells := []

/-! ### Basic facts about coordinates, `cellD` and `setCell` -/

theorem mem_allCoords {p : Nat × Nat} : p ∈ allCoords ↔ p.1 < 9 ∧ p.2 < 9 := by
  cases p with
  | mk a b =>
    simp [allCoords, List.mem_flatMap, List.mem_map, List.mem_range, width]

theorem allCoords_nodup : allCoords.Nodup := by decide

theorem cellD_eq_getElem? (g : Cells) (i j : Nat) :
    cellD g i j = ((g[i]?.getD [])[j]?).getD [] := by
  simp [cellD, List.getD_eq_getElem?_getD]

theorem setCell_length (g : Cells) (i j : Nat) (d : Domain) :
    (setCell g i j d).length = g.length := by
  simp [setCell]

theorem cellD_setCell_ne (g : Cells) (a b i j : Nat) (d : Domain)
    (h : ¬(i = a ∧ j = b)) : cellD (setCell g a b d) i j = cellD g i j := by
  rw [cellD_eq_getElem?, cellD_eq_getElem?]
  unfold setCell
  by_cases hia : i = a
  · subst hia
    have hj : j ≠ b := fun hj => h ⟨rfl, hj⟩
    by_cases hlen : i < g.length
    · rw [List.getElem?_set_self hlen]
      simp only [Option.getD_some]
      rw [List.getElem?_set_ne (fun hh => hj hh.symm)]
      rw [List.getD_eq_getElem?_getD, List.getElem?_eq_getElem hlen]
    · rw [List.set_eq_of_length_le (Nat.le_of_not_lt hlen)]
  · rw [List.getElem?_set_ne (fun hh => hia hh.symm)]

theorem cellD_setCell_self_of_ne_nil (g : Cells) (a b : Nat) (d : Domain)
    (h : cellD g a b ≠ []) : cellD (setCell g a b d) a b = d := by
  rw [cellD_eq_getElem?] at h ⊢
  unfold setCell
  by_cases hlen : a < g.length
  · rw [List.getElem?_set_self hlen]
    simp only [Option.getD_some]
    have hrow : g[a]?.getD [] = g[a] := by
      rw [List.getElem?_eq_getElem hlen]; rfl
    rw [List.getD_eq_getElem?_getD, hrow]
    rw [hrow] at h
    by_cases hb : b < (g[a]).length
    · rw [List.getElem?_set_self hb]; rfl
    · exfalso
      apply h
      rw [List.getElem?_eq_none (Nat.le_of_not_lt hb)]
      rfl
  · exfalso
    apply h
    rw [List.getElem?_eq_none (Nat.le_of_not_lt hlen)]
    rfl

theorem cellD_setCell_self_cases (g : Cells) (a b : Nat) (d : Domain) :
    cellD (setCell g a b d) a b = d ∨ cellD (setCell g a b d) a b = cellD g a b := by
  by_cases h : cellD g a b = []
  · by_cases h2 : cellD (setCell g a b d) a b = d
    · exact Or.inl h2
    · right
      rw [h]
      rw [cellD_eq_getElem?]
      unfold setCell
      by_cases hlen : a < g.length
      · rw [List.getElem?_set_self hlen]
        simp only [Option.getD_some]
        have hrow : g[a]?.getD [] = g[a] := by
          rw [List.getElem?_eq_getElem hlen]; rfl
        rw [cellD_eq_getElem?, hrow] at h
        by_cases hb : b < (g[a]).length
        · exfalso
          apply h2
          rw [cellD_eq_getElem?]
          unfold setCell
          rw [List.getElem?_set_self hlen]
          simp only [Option.getD_some]
          rw [List.getD_eq_getElem?_getD, hrow, List.getElem?_set_self hb]
          rfl
        · rw [List.getD_eq_getElem?_getD, hrow]
          rw [List.set_eq_of_length_le (Nat.le_of_not_lt hb)]
          rw [List.getElem?_eq_none (Nat.le_of_not_lt hb)]
          rfl
      · rw [List.set_eq_of_length_le (Nat.le_of_not_lt hlen)]
        rw [cellD_eq_getElem?] at h
        rw [h]
  · exact Or.inl (cellD_setCell_self_of_ne_nil g a b d h)

theorem Shape9_setCell {g : Cells} (hg : Shape9 g) (i j : Nat) (d : Domain) :
    Shape9 (setCell g i j d) := by
  obtain ⟨hl, hr⟩ := hg
  constructor
  · rw [setCell_length]; exact hl
  · intro r hrmem
    unfold setCell at hrmem
    by_cases hlen : i < g.length
    · rcases List.mem_or_eq_of_mem_set hrmem with h | h
      · exact hr r h
      · subst h
        rw [List.length_set]
        apply hr
        rw [List.getD_eq_getElem?_getD, List.getElem?_eq_getElem hlen]
        exact List.getElem_mem hlen
    · rw [List.set_eq_of_length_le (Nat.le_of_not_lt hlen)] at hrmem
      exact hr r hrmem

theorem cellD_setCell_self_inrange {g : Cells} (hg : Shape9 g) {a b : Nat}
    (ha : a < 9) (hb : b < 9) (d : Domain) :
    cellD (setCell g a b d) a b = d := by
  rw [cellD_eq_getElem?]
  unfold setCell
  have hlen : a < g.length := by rw [hg.1]; exact ha
  rw [List.getElem?_set_self hlen]
  simp only [Option.getD_some]
  have hrow : g[a]?.getD [] = g[a] := by
    rw [List.getElem?_eq_getElem hlen]; rfl
  rw [List.getD_eq_getElem?_getD, hrow]
  have hblen : b < (g[a]).length := by
    rw [hg.2 g[a] (List.getElem_mem hlen)]; exact hb
  rw [List.getElem?_set_self hblen]
  rfl

/-- Pointwise equality on the 9×9 window plus `Shape9` forces grid equality. -/
theorem cells_ext {g h : Cells} (hg : Shape9 g) (hh : Shape9 h)
    (he : ∀ i j, i < 9 → j < 9 → cellD g i j = cellD h i j) : g = h := by
  apply List.ext_getElem
  · rw [hg.1, hh.1]
  · intro i hi hi2
    apply List.ext_getElem
    · rw [hg.2 _ (List.getElem_mem hi), hh.2 _ (List.getElem_mem hi2)]
    · intro j hj hj2
      have hi9 : i < 9 := by rw [← hg.1]; exact hi
      have hj9 : j < 9 := by
        rw [← hg.2 _ (List.getElem_mem hi)]; exact hj
      have := he i j hi9 hj9
      rw [cellD_eq_getElem?, cellD_eq_getElem?] at this
      rw [List.getElem?_eq_getElem hi, List.getElem?_eq_getElem hi2] at this
      simp only [Option.getD_some] at this
      rw [List.getElem?_eq_getElem hj, List.getElem?_eq_getElem hj2] at this
      exact this

/-! ### Facts about `pyReplace` -/

theorem pyReplaceF_sublist : ∀ (fuel : Nat) (s old : List Char),
    List.Sublist (pyReplaceF fuel s old) s := by
  intro fuel
  induction fuel with
  | zero => intro s old; exact List.Sublist.refl s
  | succ n ih =>
    intro s old
    match s with
    | [] => simp [pyReplaceF]
    | c :: rest =>
      rw [pyReplaceF]
      by_cases h : old ≠ [] ∧ old.isPrefixOf (c :: rest)
      · rw [if_pos h]
        exact (ih _ _).trans (List.drop_sublist _ _)
      · rw [if_neg h]
        exact (ih rest old).cons₂ c

theorem pyReplace_sublist (s old : List Char) : List.Sublist (pyReplace s old) s :=
  pyReplaceF_sublist s.length s old

theorem pyReplace_length_le (s old : List Char) : (pyReplace s old).length ≤ s.length :=
  (pyReplace_sublist s old).length_le

theorem pyReplace_subset (s old : List Char) : pyReplace s old ⊆ s :=
  (pyReplace_sublist s old).subset

theorem pyReplaceF_singleton : ∀ (fuel : Nat) (s : List Char) (c : Char),
    s.length ≤ fuel → pyReplaceF fuel s [c] = s.filter (fun x => x ≠ c) := by
  intro fuel
  induction fuel with
  | zero =>
    intro s c hs
    have : s = [] := List.eq_nil_of_length_eq_zero (Nat.le_zero.mp hs)
    subst this; rfl
  | succ n ih =>
    intro s c hs
    match s with
    | [] => rfl
    | x :: rest =>
      rw [pyReplaceF]
      have hpre : ([c] : List Char).isPrefixOf (x :: rest) = (c == x) := by
        simp [List.isPrefixOf]
      by_cases hcx : x = c
      · subst hcx
        rw [if_pos]
        · have : (x :: rest).drop ([x] : List Char).length = rest := by simp
          rw [this, ih rest x (by simpa using Nat.le_of_succ_le_succ hs)]
          simp [List.filter]
        · exact ⟨by simp, by simp [List.isPrefixOf]⟩
      · rw [if_neg]
        · rw [ih rest c (by simpa using Nat.le_of_succ_le_succ hs)]
          simp [List.filter, hcx]
        · intro hcontra
          rw [hpre] at hcontra
          have : c = x := by simpa using hcontra.2
          exact hcx this.symm

theorem pyReplace_singleton (s : List Char) (c : Char) :
    pyReplace s [c] = s.filter (fun x => x ≠ c) :=
  pyReplaceF_singleton s.length s c (Nat.le_refl _)

theorem mem_pyReplace_singleton {s : List Char} {c x : Char} :
    x ∈ pyReplace s [c] ↔ x ∈ s ∧ x ≠ c := by
  rw [pyReplace_singleton]
  simp [List.mem_filter]

theorem pyReplace_nil (old : List Char) : pyReplace [] old = [] := rfl

theorem pyReplace_ne_nil_of_mem {s old : List Char} {x : Char}
    (hx : x ∈ pyReplace s old) : pyReplace s old ≠ [] :=
  List.ne_nil_of_mem hx

theorem removeFrom_nil (g : Cells) (row column : Nat) :
    removeFrom g row column [] = ⟨some [], false, g⟩ := rfl

theorem removeFrom_cons_zero {g : Cells} {row column : Nat} {p : Nat × Nat}
    (rest : List (Nat × Nat)) (h : (newDomainAt g row column p).length = 0) :
    removeFrom g row column (p :: rest) = ⟨none, true, g⟩ := by
  simp only [removeFrom, newDomainAt] at h ⊢
  rw [if_pos h]

theorem removeFrom_cons_pos {g : Cells} {row column : Nat} {p : Nat × Nat}
    (rest : List (Nat × Nat)) (h : (newDomainAt g row column p).length ≠ 0) :
    removeFrom g row column (p :: rest) =
      ⟨(removeFrom (setCell g p.1 p.2 (newDomainAt g row column p)) row column rest).assigned.map
          (fun as =>
            (if (newDomainAt g row column p).length = 1 ∧ 1 < (cellD g p.1 p.2).length
              then [p] else []) ++ as),
        (removeFrom (setCell g p.1 p.2 (newDomainAt g row column p)) row column rest).contradiction,
        (removeFrom (setCell g p.1 p.2 (newDomainAt g row column p)) row column rest).cells⟩ := by
  simp only [removeFrom, newDomainAt] at h ⊢
  rw [if_neg h]

theorem removeFrom_cells_length : ∀ (L : List (Nat × Nat)) (g : Cells) (row column : Nat),
    (removeFrom g row column L).cells.length = g.length := by
  intro L
  induction L with
  | nil => intro g row column; rfl
  | cons p rest ih =>
    intro g row column
    by_cases h0 : (newDomainAt g row column p).length = 0
    · rw [removeFrom_cons_zero rest h0]
    · rw [removeFrom_cons_pos rest h0]
      simpa [setCell_length] using ih (setCell g p.1 p.2 _) row column

theorem removeFrom_shape9 : ∀ (L : List (Nat × Nat)) (g : Cells) (row column : Nat),
    Shape9 g → Shape9 (removeFrom g row column L).cells := by
  intro L
  induction L with
  | nil => intro g row column hg; exact hg
  | cons p rest ih =>
    intro g row column hg
    by_cases h0 : (newDomainAt g row column p).length = 0
    · rw [removeFrom_cons_zero rest h0]; exact hg
    · rw [removeFrom_cons_pos rest h0]
      exact ih _ row column (Shape9_setCell hg _ _ _)

theorem removeFrom_sublist : ∀ (L : List (Nat × Nat)) (g : Cells) (row column : Nat)
    (i j : Nat), List.Sublist (cellD (removeFrom g row column L).cells i j) (cellD g i j) := by
  intro L
  induction L with
  | nil => intro g row column i j; exact List.Sublist.refl _
  | cons p rest ih =>
    intro g row column i j
    by_cases h0 : (newDomainAt g row column p).length = 0
    · rw [removeFrom_cons_zero rest h0]
    · rw [removeFrom_cons_pos rest h0]
      refine (ih _ row column i j).trans ?_
      by_cases hp : i = p.1 ∧ j = p.2
      · rcases cellD_setCell_self_cases g p.1 p.2 (newDomainAt g row column p) with h | h
        · rw [hp.1, hp.2, h]
          exact pyReplace_sublist _ _
        · rw [hp.1, hp.2, h]
      · rw [cellD_setCell_ne g p.1 p.2 i j _ hp]

theorem removeFrom_nonempty : ∀ (L : List (Nat × Nat)) (g : Cells) (row column : Nat)
    (i j : Nat), cellD (removeFrom g row column L).cells i j = [] → cellD g i j = [] := by
  intro L
  induction L with
  | nil => intro g row column i j h; exact h
  | cons p rest ih =>
    intro g row column i j h
    by_cases h0 : (newDomainAt g row column p).length = 0
    · rw [removeFrom_cons_zero rest h0] at h; exact h
    · rw [removeFrom_cons_pos rest h0] at h
      have h2 := ih _ row column i j h
      by_cases hp : i = p.1 ∧ j = p.2
      · rcases cellD_setCell_self_cases g p.1 p.2 (newDomainAt g row column p) with hc | hc
        · rw [hp.1, hp.2, hc] at h2
          exact absurd (congrArg List.length h2) (by simpa using h0)
        · rw [hp.1, hp.2] at h2 ⊢
          rw [hc] at h2; exact h2
      · rw [cellD_setCell_ne g p.1 p.2 i j _ hp] at h2; exact h2

theorem removeFrom_assigned_none_iff : ∀ (L : List (Nat × Nat)) (g : Cells) (row column : Nat),
    (removeFrom g row column L).assigned = none ↔
      (removeFrom g row column L).contradiction = true := by
  intro L
  induction L with
  | nil => intro g row column; simp [removeFrom_nil]
  | cons p rest ih =>
    intro g row column
    by_cases h0 : (newDomainAt g row column p).length = 0
    · rw [removeFrom_cons_zero rest h0]; simp
    · rw [removeFrom_cons_pos rest h0]
      simpa using ih (setCell g p.1 p.2 _) row column

theorem removeFrom_untouched : ∀ (L : List (Nat × Nat)) (g : Cells) (row column : Nat)
    (i j : Nat), (i, j) ∉ L →
    cellD (removeFrom g row column L).cells i j = cellD g i j := by
  intro L
  induction L with
  | nil => intro g row column i j _; rfl
  | cons p rest ih =>
    intro g row column i j hmem
    have hne : (i, j) ≠ p := fun h => hmem (by rw [h]; exact List.mem_cons_self p rest)
    have hrest : (i, j) ∉ rest := fun h => hmem (List.mem_cons_of_mem p h)
    by_cases h0 : (newDomainAt g row column p).length = 0
    · rw [removeFrom_cons_zero rest h0]
    · rw [removeFrom_cons_pos rest h0]
      have := ih (setCell g p.1 p.2 (newDomainAt g row column p)) row column i j hrest
      rw [this]
      apply cellD_setCell_ne
      intro hcontra
      exact hne (by rw [hcontra.1, hcontra.2])

theorem removeFrom_assigned_subset : ∀ (L : List (Nat × Nat)) (g : Cells) (row column : Nat)
    (p : Nat × Nat), p ∈ (removeFrom g row column L).assigned.getD [] → p ∈ L := by
  intro L
  induction L with
  | nil => intro g row column p h; simp [removeFrom_nil] at h
  | cons q rest ih =>
    intro g row column p h
    by_cases h0 : (newDomainAt g row column q).length = 0
    · rw [removeFrom_cons_zero rest h0] at h; simp at h
    · rw [removeFrom_cons_pos rest h0] at h
      rcases has : (removeFrom (setCell g q.1 q.2 (newDomainAt g row column q)) row column rest).assigned
        with _ | as
      · rw [has] at h; simp at h
      · rw [has] at h
        simp only [Option.map_some', Option.getD_some, List.mem_append] at h
        rcases h with h | h
        · split at h
          · simp at h; subst h; exact List.mem_cons_self _ _
          · simp at h
        · refine List.mem_cons_of_mem q
            (ih (setCell g q.1 q.2 (newDomainAt g row column q)) row column p ?_)
          rw [has]
          exact h

theorem newDomainAt_sublist (g : Cells) (row column : Nat) (p : Nat × Nat) :
    List.Sublist (newDomainAt g row column p) (cellD g p.1 p.2) :=
  pyReplace_sublist _ _

theorem cellD_old_ne_nil {g : Cells} {row column : Nat} {p : Nat × Nat}
    (h0 : (newDomainAt g row column p).length ≠ 0) : cellD g p.1 p.2 ≠ [] := by
  intro hnil
  apply h0
  unfold newDomainAt
  rw [hnil, pyReplace_nil]
  rfl

/-- On the no-contradiction path, every scanned peer ends up with exactly
`old.replace(value, '')` as its domain, and `variables_assigned` collects
exactly the peers whose domain length dropped from above 1 to 1. -/
theorem removeFrom_success_spec : ∀ (L : List (Nat × Nat)) (g : Cells) (row column : Nat),
    L.Nodup → (row, column) ∉ L →
    (removeFrom g row column L).contradiction = false →
    (∀ p ∈ L, cellD (removeFrom g row column L).cells p.1 p.2 =
        pyReplace (cellD g p.1 p.2) (cellD g row column)) ∧
    (removeFrom g row column L).assigned =
      some (L.filter fun p =>
        ((pyReplace (cellD g p.1 p.2) (cellD g row column)).length == 1 &&
          decide (1 < (cellD g p.1 p.2).length))) := by
  intro L
  induction L with
  | nil =>
    intro g row column _ _ _
    exact ⟨fun p hp => absurd hp (List.not_mem_nil p), rfl⟩
  | cons q rest ih =>
    intro g row column hnodup hrc hcontra
    have hqrc : (row, column) ≠ q := fun h => hrc (by rw [h]; exact List.mem_cons_self _ _)
    have hrcrest : (row, column) ∉ rest := fun h => hrc (List.mem_cons_of_mem q h)
    have hqrest : q ∉ rest := (List.nodup_cons.mp hnodup).1
    have hrestnodup : rest.Nodup := (List.nodup_cons.mp hnodup).2
    by_cases h0 : (newDomainAt g row column q).length = 0
    · rw [removeFrom_cons_zero rest h0] at hcontra
      simp at hcontra
    · rw [removeFrom_cons_pos rest h0] at hcontra ⊢
      simp only at hcontra
      set g1 := setCell g q.1 q.2 (newDomainAt g row column q) with hg1
      have holdne : cellD g q.1 q.2 ≠ [] := cellD_old_ne_nil h0
      have hwrr : cellD g1 q.1 q.2 = newDomainAt g row column q :=
        cellD_setCell_self_of_ne_nil g q.1 q.2 _ holdne
      have hval : cellD g1 row column = cellD g row column := by
        apply cellD_setCell_ne
        intro hh
        exact hqrc (Prod.ext hh.1.symm hh.2.symm).symm
      have hrest_cell : ∀ p ∈ rest, cellD g1 p.1 p.2 = cellD g p.1 p.2 := by
        intro p hp
        apply cellD_setCell_ne
        intro hh
        apply hqrest
        have : q = p := Prod.ext hh.1.symm hh.2.symm ▸ rfl
        rw [← Prod.ext hh.1.symm hh.2.symm] at hp
        exact hp
      obtain ⟨ihcell, ihassigned⟩ := ih g1 row column hrestnodup hrcrest hcontra
      constructor
      · intro p hp
        rcases List.mem_cons.mp hp with hpq | hpr
        · subst hpq
          rw [removeFrom_untouched rest g1 row column p.1 p.2 (by simpa using hqrest)]
          exact hwrr
        · rw [ihcell p hpr, hrest_cell p hpr, hval]
      · simp only [ihassigned, Option.map_some']
        congr 1
        have hfilter : rest.filter (fun p =>
            ((pyReplace (cellD g1 p.1 p.2) (cellD g1 row column)).length == 1 &&
              decide (1 < (cellD g1 p.1 p.2).length))) =
            rest.filter (fun p =>
            ((pyReplace (cellD g p.1 p.2) (cellD g row column)).length == 1 &&
              decide (1 < (cellD g p.1 p.2).length))) := by
          apply List.filter_congr
          intro p hp
          rw [hrest_cell p hp, hval]
        rw [hfilter, List.filter_cons]
        by_cases hpush : (newDomainAt g row column q).length = 1 ∧ 1 < (cellD g q.1 q.2).length
        · rw [if_pos hpush]
          have : ((pyReplace (cellD g q.1 q.2) (cellD g row column)).length == 1 &&
              decide (1 < (cellD g q.1 q.2).length)) = true := by
            simp only [Bool.and_eq_true, beq_iff_eq, decide_eq_true_eq]
            exact ⟨hpush.1, hpush.2⟩
          rw [this]
          simp
        · rw [if_neg hpush]
          have : ((pyReplace (cellD g q.1 q.2) (cellD g row column)).length == 1 &&
              decide (1 < (cellD g q.1 q.2).length)) = false := by
            simp only [Bool.and_eq_false_iff, beq_eq_false_iff_ne, ne_eq, decide_eq_false_iff_not,
              Nat.not_lt]
            by_cases h1 : (newDomainAt g row column q).length = 1
            · right
              by_contra hlt
              exact hpush ⟨h1, Nat.lt_of_not_le hlt⟩
            · left
              exact h1
          rw [this]
          simp

/-- On the contradiction path, the scan splits as `L1 ++ p :: L2`: the prefix
`L1` was processed without contradiction and its mutations persist (no
rollback), peer `p` would have an emptied domain, and neither `p` nor any
later peer is mutated. -/
theorem removeFrom_contra_spec : ∀ (L : List (Nat × Nat)) (g : Cells) (row column : Nat),
    L.Nodup → (row, column) ∉ L →
    (removeFrom g row column L).contradiction = true →
    (removeFrom g row column L).assigned = none ∧
    ∃ L1 p L2, L = L1 ++ p :: L2 ∧
      (removeFrom g row column L1).contradiction = false ∧
      (removeFrom g row column L).cells = (removeFrom g row column L1).cells ∧
      pyReplace (cellD (removeFrom g row column L).cells p.1 p.2)
        (cellD (removeFrom g row column L).cells row column) = [] ∧
      (∀ q ∈ L1, cellD (removeFrom g row column L).cells q.1 q.2 =
          pyReplace (cellD g q.1 q.2) (cellD g row column)) ∧
      (∀ q ∈ p :: L2, cellD (removeFrom g row column L).cells q.1 q.2 = cellD g q.1 q.2) := by
  intro L
  induction L with
  | nil =>
    intro g row column _ _ hcontra
    rw [removeFrom_nil] at hcontra
    simp at hcontra
  | cons q rest ih =>
    intro g row column hnodup hrc hcontra
    have hqrc : (row, column) ≠ q := fun h => hrc (by rw [h]; exact List.mem_cons_self _ _)
    have hrcrest : (row, column) ∉ rest := fun h => hrc (List.mem_cons_of_mem q h)
    have hqrest : q ∉ rest := (List.nodup_cons.mp hnodup).1
    have hrestnodup : rest.Nodup := (List.nodup_cons.mp hnodup).2
    refine ⟨(removeFrom_assigned_none_iff (q :: rest) g row column).mpr hcontra, ?_⟩
    by_cases h0 : (newDomainAt g row column q).length = 0
    · refine ⟨[], q, rest, rfl, ?_, ?_, ?_, ?_, ?_⟩
      · rw [removeFrom_nil]
      · rw [removeFrom_cons_zero rest h0, removeFrom_nil]
      · rw [removeFrom_cons_zero rest h0]
        exact List.eq_nil_of_length_eq_zero h0
      · intro p hp
        exact absurd hp (List.not_mem_nil p)
      · intro p hp
        rw [removeFrom_cons_zero rest h0]
    · rw [removeFrom_cons_pos rest h0] at hcontra ⊢
      simp only at hcontra ⊢
      set g1 := setCell g q.1 q.2 (newDomainAt g row column q) with hg1
      have holdne : cellD g q.1 q.2 ≠ [] := cellD_old_ne_nil h0
      have hwrr : cellD g1 q.1 q.2 = newDomainAt g row column q :=
        cellD_setCell_self_of_ne_nil g q.1 q.2 _ holdne
      have hval : cellD g1 row column = cellD g row column := by
        apply cellD_setCell_ne
        intro hh
        exact hqrc (Prod.ext hh.1.symm hh.2.symm).symm
      have hrest_cell : ∀ p ∈ rest, cellD g1 p.1 p.2 = cellD g p.1 p.2 := by
        intro p hp
        apply cellD_setCell_ne
        intro hh
        apply hqrest
        rw [← Prod.ext hh.1.symm hh.2.symm] at hp
        exact hp
      obtain ⟨-, L1', p', L2', hsplit, hpre, hcells, hempty, hproc, huntouched⟩ :=
        ih g1 row column hrestnodup hrcrest hcontra
      refine ⟨q :: L1', p', L2', by rw [hsplit]; rfl, ?_, ?_, ?_, ?_, ?_⟩
      · rw [removeFrom_cons_pos L1' h0]
        exact hpre
      · rw [removeFrom_cons_pos L1' h0]
        exact hcells
      · exact hempty
      · intro p hp
        rcases List.mem_cons.mp hp with hpq | hpr
        · subst hpq
          have hnotin : p ∉ rest := hqrest
          rw [removeFrom_untouched rest g1 row column p.1 p.2 (by simpa using hnotin)]
          exact hwrr
        · have hprest : p ∈ rest := by
            rw [hsplit]
            exact List.mem_append.mpr (Or.inl hpr)
          rw [hproc p hpr, hrest_cell p hprest, hval]
      · intro p hp
        have hprest : p ∈ rest := by
          rw [hsplit]
          rcases List.mem_cons.mp hp with hpq | hpr
          · subst hpq; exact List.mem_append.mpr (Or.inr (List.mem_cons_self _ _))
          · exact List.mem_append.mpr (Or.inr (List.mem_cons_of_mem _ hpr))
        rw [huntouched p hp, hrest_cell p hprest]

/-! ### Excess accounting and termination of `consistency` -/

theorem sum_map_le_sum_map {α : Type} (l : List α) (f f2 : α → Nat)
    (h : ∀ x ∈ l, f2 x ≤ f x) : (l.map f2).sum ≤ (l.map f).sum :=
  List.sum_le_sum h

theorem sum_map_succ_le {α : Type} : ∀ (l : List α) (f f2 : α → Nat) (p : α),
    p ∈ l → (∀ x ∈ l, f2 x ≤ f x) → f2 p + 1 ≤ f p →
    (l.map f2).sum + 1 ≤ (l.map f).sum := by
  intro l
  induction l with
  | nil => intro f f2 p hp; exact absurd hp (List.not_mem_nil p)
  | cons a t ih =>
    intro f f2 p hp hle hstrict
    simp only [List.map_cons, List.sum_cons]
    rcases List.mem_cons.mp hp with hpa | hpt
    · subst hpa
      have h1 : (t.map f2).sum ≤ (t.map f).sum :=
        sum_map_le_sum_map t f f2 (fun x hx => hle x (List.mem_cons_of_mem _ hx))
      omega
    · have h1 : f2 a ≤ f a := hle a (List.mem_cons_self _ _)
      have h2 : (t.map f2).sum + 1 ≤ (t.map f).sum :=
        ih f f2 p hpt (fun x hx => hle x (List.mem_cons_of_mem _ hx)) hstrict
      omega

theorem totalExcess_mono {g g2 : Cells}
    (h : ∀ p ∈ allCoords, (cellD g2 p.1 p.2).length ≤ (cellD g p.1 p.2).length) :
    totalExcess g2 ≤ totalExcess g := by
  unfold totalExcess
  apply sum_map_le_sum_map
  intro p hp
  exact Nat.sub_le_sub_right (h p hp) 1

/-- Each no-contradiction removal pays one unit of excess for every newly
singleton peer it reports. -/
theorem removeFrom_excess : ∀ (L : List (Nat × Nat)) (g : Cells) (row column : Nat),
    (∀ p ∈ L, p.1 < 9 ∧ p.2 < 9) →
    (removeFrom g row column L).contradiction = false →
    totalExcess (removeFrom g row column L).cells +
      ((removeFrom g row column L).assigned.getD []).length ≤ totalExcess g := by
  intro L
  induction L with
  | nil =>
    intro g row column _ _
    rw [removeFrom_nil]
    simp
  | cons q rest ih =>
    intro g row column hrange hcontra
    by_cases h0 : (newDomainAt g row column q).length = 0
    · rw [removeFrom_cons_zero rest h0] at hcontra
      simp at hcontra
    · rw [removeFrom_cons_pos rest h0] at hcontra ⊢
      simp only at hcontra ⊢
      set g1 := setCell g q.1 q.2 (newDomainAt g row column q) with hg1
      have holdne : cellD g q.1 q.2 ≠ [] := cellD_old_ne_nil h0
      have hwrr : cellD g1 q.1 q.2 = newDomainAt g row column q :=
        cellD_setCell_self_of_ne_nil g q.1 q.2 _ holdne
      have hpoint : ∀ p ∈ allCoords, (cellD g1 p.1 p.2).length ≤ (cellD g p.1 p.2).length := by
        intro p hp
        by_cases hpq : p.1 = q.1 ∧ p.2 = q.2
        · rw [hpq.1, hpq.2, hwrr]
          exact (newDomainAt_sublist g row column q).length_le
        · rw [cellD_setCell_ne g q.1 q.2 p.1 p.2 _ (by
            intro hh; exact hpq ⟨hh.1, hh.2⟩)]
      obtain ⟨has', hassigned⟩ :
          ∃ as, (removeFrom g1 row column rest).assigned = some as := by
        rcases hopt : (removeFrom g1 row column rest).assigned with _ | as
        · exfalso
          have := (removeFrom_assigned_none_iff rest g1 row column).mp hopt
          rw [this] at hcontra
          exact absurd hcontra (by simp)
        · exact ⟨as, rfl⟩
      have ihle := ih g1 row column (fun p hp => hrange p (List.mem_cons_of_mem q hp)) hcontra
      rw [hassigned] at ihle
      simp only [Option.getD_some] at ihle
      rw [hassigned]
      simp only [Option.map_some', Option.getD_some, List.length_append]
      by_cases hpush : (newDomainAt g row column q).length = 1 ∧ 1 < (cellD g q.1 q.2).length
      · rw [if_pos hpush]
        have hq9 : q.1 < 9 ∧ q.2 < 9 := hrange q (List.mem_cons_self _ _)
        have hstep : totalExcess g1 + 1 ≤ totalExcess g := by
          unfold totalExcess
          apply sum_map_succ_le allCoords _ _ q (mem_allCoords.mpr hq9)
          · intro p hp
            exact Nat.sub_le_sub_right (hpoint p hp) 1
          · rw [hwrr, hpush.1]
            omega
        simp only [List.length_cons, List.length_nil]
        omega
      · rw [if_neg hpush]
        have hstep : totalExcess g1 ≤ totalExcess g := totalExcess_mono hpoint
        simp only [List.length_nil]
        omega

/-! ### The peer lists: membership, dedup, and coverage -/

theorem cellD_outside_row {g : Cells} (hg : Shape9 g) {i : Nat} (hi : 9 ≤ i) (j : Nat) :
    cellD g i j = [] := by
  rw [cellD_eq_getElem?]
  have h1 : g[i]? = none := List.getElem?_eq_none (by rw [hg.1]; exact hi)
  rw [h1]
  rfl

theorem cellD_outside_col {g : Cells} (hg : Shape9 g) (i : Nat) {j : Nat} (hj : 9 ≤ j) :
    cellD g i j = [] := by
  rw [cellD_eq_getElem?]
  by_cases hi : i < g.length
  · rw [List.getElem?_eq_getElem hi]
    simp only [Option.getD_some]
    have h1 : (g[i])[j]? = none :=
      List.getElem?_eq_none (by rw [hg.2 _ (List.getElem_mem hi)]; exact hj)
    rw [h1]
    rfl
  · have h1 : g[i]? = none := List.getElem?_eq_none (Nat.le_of_not_lt hi)
    rw [h1]
    rfl

theorem mem_rowPeers_iff {row column : Nat} {p : Nat × Nat} :
    p ∈ rowPeers row column ↔ p.1 = row ∧ p.2 < 9 ∧ p.2 ≠ column := by
  cases p with
  | mk a b =>
    simp only [rowPeers, width, List.mem_map, List.mem_filter, List.mem_range]
    constructor
    · rintro ⟨j, ⟨hj, hjc⟩, hje⟩
      obtain ⟨h1, h2⟩ := Prod.mk.injEq _ _ _ _ ▸ hje
      subst h1; subst h2
      exact ⟨rfl, hj, by simpa using hjc⟩
    · rintro ⟨h1, h2, h3⟩
      exact ⟨b, ⟨h2, by simpa using h3⟩, by rw [h1]⟩

theorem mem_colPeers_iff {row column : Nat} {p : Nat × Nat} :
    p ∈ colPeers row column ↔ p.2 = column ∧ p.1 < 9 ∧ p.1 ≠ row := by
  cases p with
  | mk a b =>
    simp only [colPeers, width, List.mem_map, List.mem_filter, List.mem_range]
    constructor
    · rintro ⟨j, ⟨hj, hjc⟩, hje⟩
      obtain ⟨h1, h2⟩ := Prod.mk.injEq _ _ _ _ ▸ hje
      subst h1; subst h2
      exact ⟨rfl, hj, by simpa using hjc⟩
    · rintro ⟨h1, h2, h3⟩
      exact ⟨a, ⟨h2, by simpa using h3⟩, by rw [h1]⟩

theorem mem_unitPeers_iff {row column : Nat} {p : Nat × Nat} :
    p ∈ unitPeers row column ↔
      (∃ a, a < 3 ∧ ∃ b, b < 3 ∧ p = (row / 3 * 3 + a, column / 3 * 3 + b)) ∧
        ¬(p.1 = row ∧ p.2 = column) := by
  simp only [unitPeers, List.mem_filter, List.mem_flatMap, List.mem_map, List.mem_range,
    decide_not, Bool.not_eq_true', decide_eq_false_iff_not]
  constructor
  · rintro ⟨⟨a, ha, b, hb, he⟩, hne⟩
    exact ⟨⟨a, ha, b, hb, he.symm⟩, hne⟩
  · rintro ⟨⟨a, ha, b, hb, he⟩, hne⟩
    exact ⟨⟨a, ha, b, hb, he.symm⟩, hne⟩

theorem rowPeers_nodup (row column : Nat) : (rowPeers row column).Nodup := by
  unfold rowPeers
  apply List.Nodup.map
  · intro a b hab
    exact (Prod.mk.injEq _ _ _ _ ▸ hab).2
  · exact (List.nodup_range 9).filter _

theorem colPeers_nodup (row column : Nat) : (colPeers row column).Nodup := by
  unfold colPeers
  apply List.Nodup.map
  · intro a b hab
    exact (Prod.mk.injEq _ _ _ _ ▸ hab).1
  · exact (List.nodup_range 9).filter _

theorem unitPeers_nodup (row column : Nat) : (unitPeers row column).Nodup := by
  unfold unitPeers
  apply List.Nodup.filter
  apply List.nodup_flatMap.mpr
  constructor
  · intro a _
    apply List.Nodup.map
    · intro x y hxy
      have := (Prod.mk.injEq _ _ _ _ ▸ hxy).2
      omega
    · exact List.nodup_range 3
  · rw [List.pairwise_iff_forall_sublist]
    intro a b hab
    have hane : a ≠ b := by
      have := hab.nodup (List.nodup_range 3)
      simp at this
      exact this
    intro x hxa hxb
    simp only [Function.onFun, List.mem_map, List.mem_range] at hxa hxb
    obtain ⟨u, _, hu⟩ := hxa
    obtain ⟨v, _, hv⟩ := hxb
    apply hane
    have h1 := (Prod.mk.injEq _ _ _ _ ▸ (hu.trans hv.symm)).1
    omega

theorem self_not_mem_rowPeers (row column : Nat) : (row, column) ∉ rowPeers row column := by
  intro h
  exact (mem_rowPeers_iff.mp h).2.2 rfl

theorem self_not_mem_colPeers (row column : Nat) : (row, column) ∉ colPeers row column := by
  intro h
  exact (mem_colPeers_iff.mp h).2.2 rfl

theorem self_not_mem_unitPeers (row column : Nat) : (row, column) ∉ unitPeers row column := by
  intro h
  exact (mem_unitPeers_iff.mp h).2 ⟨rfl, rfl⟩

theorem rowPeers_range {row column : Nat} (hrow : row < 9) :
    ∀ p ∈ rowPeers row column, p.1 < 9 ∧ p.2 < 9 := by
  intro p hp
  obtain ⟨h1, h2, _⟩ := mem_rowPeers_iff.mp hp
  exact ⟨h1 ▸ hrow, h2⟩

theorem colPeers_range {row column : Nat} (hcol : column < 9) :
    ∀ p ∈ colPeers row column, p.1 < 9 ∧ p.2 < 9 := by
  intro p hp
  obtain ⟨h1, h2, _⟩ := mem_colPeers_iff.mp hp
  exact ⟨h2, h1 ▸ hcol⟩

theorem unitPeers_range {row column : Nat} (hrow : row < 9) (hcol : column < 9) :
    ∀ p ∈ unitPeers row column, p.1 < 9 ∧ p.2 < 9 := by
  intro p hp
  obtain ⟨⟨a, ha, b, hb, he⟩, _⟩ := mem_unitPeers_iff.mp hp
  subst he
  constructor
  · simp only
    omega
  · simp only
    omega

/-- Every in-range peer of an in-range cell is scanned by one of the three
removal loops. -/
theorem peers_covered {v p : Nat × Nat} (hp : InRange9 p) (hpeer : Peers v p) :
    p ∈ rowPeers v.1 v.2 ∨ p ∈ colPeers v.1 v.2 ∨ p ∈ unitPeers v.1 v.2 := by
  obtain ⟨hne, hsame⟩ := hpeer
  have hpne : p ≠ v := fun h => hne h.symm
  rcases hsame with hrow | hcol | hbox
  · left
    apply mem_rowPeers_iff.mpr
    refine ⟨hrow.symm, hp.2, ?_⟩
    intro h2
    exact hpne (Prod.ext hrow.symm h2)
  · right; left
    apply mem_colPeers_iff.mpr
    refine ⟨hcol.symm, hp.1, ?_⟩
    intro h1
    exact hpne (Prod.ext h1 hcol.symm)
  · right; right
    apply mem_unitPeers_iff.mpr
    constructor
    · refine ⟨p.1 % 3, Nat.mod_lt _ (by omega), p.2 % 3, Nat.mod_lt _ (by omega), ?_⟩
      have h1 : v.1 / 3 * 3 + p.1 % 3 = p.1 := by
        have := Nat.div_add_mod p.1 3
        omega
      have h2 : v.2 / 3 * 3 + p.2 % 3 = p.2 := by
        have := Nat.div_add_mod p.2 3
        omega
      rw [hbox.1, hbox.2] at *
      exact Prod.ext h1.symm h2.symm
    · intro hcontra
      exact hpne (Prod.ext hcontra.1 hcontra.2)

theorem consistencyF_zero (g : Cells) (Q : List (Nat × Nat)) :
    consistencyF 0 g Q = none := rfl

theorem consistencyF_succ_nil (fuel : Nat) (g : Cells) :
    consistencyF (fuel + 1) g [] = some (true, g) := by
  rw [consistencyF]
  rw [dif_pos rfl]

theorem consistencyF_succ (fuel : Nat) (g : Cells) (Q : List (Nat × Nat)) (hQ : Q ≠ []) :
    consistencyF (fuel + 1) g Q =
      if stepContra g (Q.getLast hQ) then some (false, stepCells g (Q.getLast hQ))
      else consistencyF fuel (stepCells g (Q.getLast hQ)) (stepQueue g (Q.getLast hQ) Q) := by
  rw [consistencyF]
  rw [dif_neg hQ]
  rfl

theorem stepCells_shape9 {g : Cells} (hg : Shape9 g) (v : Nat × Nat) :
    Shape9 (stepCells g v) := by
  unfold stepCells r3of r2of r1of remove_domain_row remove_domain_column remove_domain_unit
  exact removeFrom_shape9 _ _ _ _ (removeFrom_shape9 _ _ _ _ (removeFrom_shape9 _ _ _ _ hg))

theorem stepCells_sublist (g : Cells) (v : Nat × Nat) (i j : Nat) :
    List.Sublist (cellD (stepCells g v) i j) (cellD g i j) := by
  unfold stepCells r3of r2of r1of remove_domain_row remove_domain_column remove_domain_unit
  exact (removeFrom_sublist _ _ _ _ i j).trans
    ((removeFrom_sublist _ _ _ _ i j).trans (removeFrom_sublist _ _ _ _ i j))

theorem stepCells_nonempty (g : Cells) (v : Nat × Nat) (i j : Nat) :
    cellD (stepCells g v) i j = [] → cellD g i j = [] := by
  unfold stepCells r3of r2of r1of remove_domain_row remove_domain_column remove_domain_unit
  intro h
  exact removeFrom_nonempty _ _ _ _ i j
    (removeFrom_nonempty _ _ _ _ i j (removeFrom_nonempty _ _ _ _ i j h))

theorem removeFrom_no_contra_old_nonempty :
    ∀ (L : List (Nat × Nat)) (g : Cells) (row column : Nat),
    (removeFrom g row column L).contradiction = false →
    ∀ p ∈ L, cellD g p.1 p.2 ≠ [] := by
  intro L
  induction L with
  | nil => intro g row column _ p hp; exact absurd hp (List.not_mem_nil p)
  | cons q rest ih =>
    intro g row column hcontra p hp
    by_cases h0 : (newDomainAt g row column q).length = 0
    · rw [removeFrom_cons_zero rest h0] at hcontra
      simp at hcontra
    · rw [removeFrom_cons_pos rest h0] at hcontra
      simp only at hcontra
      rcases List.mem_cons.mp hp with hpq | hpr
      · subst hpq
        exact cellD_old_ne_nil h0
      · have := ih (setCell g q.1 q.2 (newDomainAt g row column q)) row column hcontra p hpr
        intro hnil
        apply this
        rcases cellD_setCell_self_cases g q.1 q.2 (newDomainAt g row column q) with hc | hc
        · by_cases hpq2 : p.1 = q.1 ∧ p.2 = q.2
          · rw [hpq2.1, hpq2.2, hc]
            rw [hpq2.1, hpq2.2] at hnil
            have hsub := newDomainAt_sublist g row column q
            rw [hnil] at hsub
            exact List.eq_nil_of_length_eq_zero (Nat.le_zero.mp hsub.length_le)
          · rw [cellD_setCell_ne g q.1 q.2 p.1 p.2 _ hpq2]
            exact hnil
        · by_cases hpq2 : p.1 = q.1 ∧ p.2 = q.2
          · rw [hpq2.1, hpq2.2, hc]
            rw [hpq2.1, hpq2.2] at hnil
            exact hnil
          · rw [cellD_setCell_ne g q.1 q.2 p.1 p.2 _ hpq2]
            exact hnil

theorem pop_inrange_of_no_contra {g : Cells} {v : Nat × Nat} (hg : Shape9 g)
    (h1 : (r1of g v).contradiction = false) (h2 : (r2of g v).contradiction = false) :
    InRange9 v := by
  constructor
  · by_contra hlt
    have hge : 9 ≤ v.1 := Nat.le_of_not_lt hlt
    have hj : ∃ j, (v.1, j) ∈ rowPeers v.1 v.2 := by
      by_cases hv2 : v.2 = 0
      · exact ⟨1, mem_rowPeers_iff.mpr ⟨rfl, by omega, by omega⟩⟩
      · exact ⟨0, mem_rowPeers_iff.mpr ⟨rfl, by omega, fun h => hv2 h.symm⟩⟩
    obtain ⟨j, hjmem⟩ := hj
    have := removeFrom_no_contra_old_nonempty (rowPeers v.1 v.2) g v.1 v.2 h1 (v.1, j) hjmem
    exact this (cellD_outside_row hg hge j)
  · by_contra hlt
    have hge : 9 ≤ v.2 := Nat.le_of_not_lt hlt
    have hg1 : Shape9 (r1of g v).cells := removeFrom_shape9 _ _ _ _ hg
    have hi : ∃ i, (i, v.2) ∈ colPeers v.1 v.2 := by
      by_cases hv1 : v.1 = 0
      · exact ⟨1, mem_colPeers_iff.mpr ⟨rfl, by omega, by omega⟩⟩
      · exact ⟨0, mem_colPeers_iff.mpr ⟨rfl, by omega, fun h => hv1 h.symm⟩⟩
    obtain ⟨i, himem⟩ := hi
    have := removeFrom_no_contra_old_nonempty (colPeers v.1 v.2) (r1of g v).cells v.1 v.2 h2
      (i, v.2) himem
    exact this (cellD_outside_col hg1 i hge)

theorem stepContra_parts {g : Cells} {v : Nat × Nat} (h : stepContra g v = false) :
    (r1of g v).contradiction = false ∧ (r2of g v).contradiction = false ∧
      (r3of g v).contradiction = false := by
  unfold stepContra at h
  simp only [Bool.or_eq_false_iff] at h
  exact ⟨h.1.1, h.1.2, h.2⟩

/-- One no-contradiction iteration strictly shrinks
`Q.length + totalExcess`. -/
theorem step_measure {g : Cells} {v : Nat × Nat} (hg : Shape9 g)
    (hnc : stepContra g v = false) :
    totalExcess (stepCells g v) +
      ((r1of g v).assigned.getD []).length +
      ((r2of g v).assigned.getD []).length +
      ((r3of g v).assigned.getD []).length ≤ totalExcess g := by
  obtain ⟨h1, h2, h3⟩ := stepContra_parts hnc
  have hv : InRange9 v := pop_inrange_of_no_contra hg h1 h2
  have e1 := removeFrom_excess (rowPeers v.1 v.2) g v.1 v.2 (rowPeers_range hv.1) h1
  have e2 := removeFrom_excess (colPeers v.1 v.2) (r1of g v).cells v.1 v.2
    (colPeers_range hv.2) h2
  have e3 := removeFrom_excess (unitPeers v.1 v.2) (r2of g v).cells v.1 v.2
    (unitPeers_range hv.1 hv.2) h3
  unfold stepCells r3of at *
  unfold r2of at *
  unfold r1of at *
  unfold remove_domain_row remove_domain_column remove_domain_unit at *
  omega

/-- Sufficient fuel: `Q.length + totalExcess g` iterations always finish. -/
theorem consistencyF_isSome : ∀ (fuel : Nat) (g : Cells) (Q : List (Nat × Nat)),
    Shape9 g → Q.length + totalExcess g < fuel → (consistencyF fuel g Q).isSome := by
  intro fuel
  induction fuel with
  | zero => intro g Q _ h; omega
  | succ n ih =>
    intro g Q hg hlt
    by_cases hQ : Q = []
    · subst hQ
      rw [consistencyF_succ_nil]
      rfl
    · rw [consistencyF_succ n g Q hQ]
      by_cases hc : stepContra g (Q.getLast hQ)
      · rw [if_pos hc]
        rfl
      · rw [if_neg hc]
        apply ih _ _ (stepCells_shape9 hg _)
        have hmeasure := step_measure hg (Bool.not_eq_true _ ▸ hc)
        have hdrop : Q.dropLast.length = Q.length - 1 := by
          rw [List.length_dropLast]
        have hQpos : 0 < Q.length := List.length_pos_of_ne_nil hQ
        unfold stepQueue
        simp only [List.length_append]
        omega

theorem consistencyF_mono : ∀ (fuel fuel2 : Nat) (g : Cells) (Q : List (Nat × Nat))
    (r : Bool × Cells), fuel ≤ fuel2 → consistencyF fuel g Q = some r →
    consistencyF fuel2 g Q = some r := by
  intro fuel
  induction fuel with
  | zero => intro fuel2 g Q r _ h; rw [consistencyF_zero] at h; exact absurd h (by simp)
  | succ n ih =>
    intro fuel2 g Q r hle h
    obtain ⟨m, rfl⟩ : ∃ m, fuel2 = m + 1 := by
      cases fuel2 with
      | zero => omega
      | succ m => exact ⟨m, rfl⟩
    have hnm : n ≤ m := by omega
    by_cases hQ : Q = []
    · subst hQ
      rw [consistencyF_succ_nil] at h ⊢
      exact h
    · rw [consistencyF_succ n g Q hQ] at h
      rw [consistencyF_succ m g Q hQ]
      by_cases hc : stepContra g (Q.getLast hQ)
      · rw [if_pos hc] at h ⊢
        exact h
      · rw [if_neg hc] at h ⊢
        exact ih m _ _ r hnm h

theorem consistencyT_eq {g : Cells} (hg : Shape9 g) (Q : List (Nat × Nat)) :
    consistencyF (consistencyBound g Q) g Q = some (consistencyT g Q) := by
  have h := consistencyF_isSome (consistencyBound g Q) g Q hg (by unfold consistencyBound; omega)
  rcases hr : consistencyF (consistencyBound g Q) g Q with _ | r
  · rw [hr] at h; exact absurd h (by simp)
  · unfold consistencyT
    rw [hr]
    rfl

theorem consistencyF_eq_consistencyT {g : Cells} {Q : List (Nat × Nat)} {fuel : Nat}
    {r : Bool × Cells} (hg : Shape9 g) (h : consistencyF fuel g Q = some r) :
    r = consistencyT g Q := by
  have hT := consistencyT_eq hg Q
  by_cases hle : fuel ≤ consistencyBound g Q
  · have := consistencyF_mono fuel (consistencyBound g Q) g Q r hle h
    rw [this] at hT
    exact Option.some_inj.mp hT
  · have := consistencyF_mono (consistencyBound g Q) fuel g Q _ (Nat.le_of_not_le hle) hT
    rw [this] at h
    exact (Option.some_inj.mp h).symm

/-! ### Propagation preserves the peer-distinctness invariant -/

theorem length_eq_one_iff {l : List Char} : l.length = 1 ↔ ∃ c, l = [c] := by
  constructor
  · intro h
    match l with
    | [c] => exact ⟨c, rfl⟩
  · rintro ⟨c, rfl⟩
    rfl

/-- A successful removal really deletes the (singleton) removed value from
every scanned peer. -/
theorem removeFrom_removes_value {L : List (Nat × Nat)} {g : Cells} {row column : Nat}
    {d : Char} (hnodup : L.Nodup) (hrc : (row, column) ∉ L) (hval : cellD g row column = [d])
    (hcontra : (removeFrom g row column L).contradiction = false) :
    ∀ p ∈ L, d ∉ cellD (removeFrom g row column L).cells p.1 p.2 := by
  intro p hp
  obtain ⟨hcell, _⟩ := removeFrom_success_spec L g row column hnodup hrc hcontra
  rw [hcell p hp, hval]
  intro hmem
  exact (mem_pyReplace_singleton.mp hmem).2 rfl

/-- A successful removal reports every scanned cell whose domain length
crossed from above 1 to exactly 1. -/
theorem removeFrom_crossing {L : List (Nat × Nat)} {g : Cells} {row column : Nat}
    (hnodup : L.Nodup) (hrc : (row, column) ∉ L)
    (hcontra : (removeFrom g row column L).contradiction = false) :
    ∀ p, 1 < (cellD g p.1 p.2).length →
      (cellD (removeFrom g row column L).cells p.1 p.2).length = 1 →
      p ∈ (removeFrom g row column L).assigned.getD [] := by
  intro p hbig hone
  by_cases hmem : p ∈ L
  · obtain ⟨hcell, hassigned⟩ := removeFrom_success_spec L g row column hnodup hrc hcontra
    rw [hassigned]
    simp only [Option.getD_some]
    apply List.mem_filter.mpr
    refine ⟨hmem, ?_⟩
    simp only [Bool.and_eq_true, beq_iff_eq, decide_eq_true_eq]
    rw [hcell p hmem] at hone
    exact ⟨hone, hbig⟩
  · rcases p with ⟨a, b⟩
    rw [removeFrom_untouched L g row column a b hmem] at hone
    simp only at hbig hone
    omega

/-- Reported newly singleton cells really have singleton domains in the
mutated grid. -/
theorem removeFrom_assigned_single {L : List (Nat × Nat)} {g : Cells} {row column : Nat}
    (hnodup : L.Nodup) (hrc : (row, column) ∉ L)
    (hcontra : (removeFrom g row column L).contradiction = false) :
    ∀ p ∈ (removeFrom g row column L).assigned.getD [],
      (cellD (removeFrom g row column L).cells p.1 p.2).length = 1 := by
  intro p hp
  obtain ⟨hcell, hassigned⟩ := removeFrom_success_spec L g row column hnodup hrc hcontra
  rw [hassigned] at hp
  simp only [Option.getD_some] at hp
  obtain ⟨hmem, hpred⟩ := List.mem_filter.mp hp
  simp only [Bool.and_eq_true, beq_iff_eq, decide_eq_true_eq] at hpred
  rw [hcell p hmem]
  exact hpred.1

theorem self_untouched_by_step (g : Cells) (v : Nat × Nat) :
    cellD (stepCells g v) v.1 v.2 = cellD g v.1 v.2 := by
  unfold stepCells r3of r2of r1of remove_domain_row remove_domain_column remove_domain_unit
  rw [removeFrom_untouched _ _ _ _ _ _ (by simpa using self_not_mem_unitPeers v.1 v.2)]
  rw [removeFrom_untouched _ _ _ _ _ _ (by simpa using self_not_mem_colPeers v.1 v.2)]
  rw [removeFrom_untouched _ _ _ _ _ _ (by simpa using self_not_mem_rowPeers v.1 v.2)]

theorem mem_dropLast_of_ne_last {Q : List (Nat × Nat)} (hQ : Q ≠ []) {x : Nat × Nat}
    (hx : x ∈ Q) (hne : x ≠ Q.getLast hQ) : x ∈ Q.dropLast := by
  have hsplit : Q.dropLast ++ [Q.getLast hQ] = Q := List.dropLast_append_getLast hQ
  rw [← hsplit] at hx
  rcases List.mem_append.mp hx with h | h
  · exact h
  · rw [List.mem_singleton] at h
    exact absurd h hne

theorem peers_symm {a b : Nat × Nat} (h : Peers a b) : Peers b a := by
  obtain ⟨hne, hsame⟩ := h
  refine ⟨fun hh => hne hh.symm, ?_⟩
  rcases hsame with h | h | h
  · exact Or.inl h.symm
  · exact Or.inr (Or.inl h.symm)
  · exact Or.inr (Or.inr ⟨h.1.symm, h.2.symm⟩)

theorem r1of_def (g : Cells) (v : Nat × Nat) :
    r1of g v = removeFrom g v.1 v.2 (rowPeers v.1 v.2) := rfl

theorem r2of_def (g : Cells) (v : Nat × Nat) :
    r2of g v = removeFrom (r1of g v).cells v.1 v.2 (colPeers v.1 v.2) := rfl

theorem r3of_def (g : Cells) (v : Nat × Nat) :
    r3of g v = removeFrom (r2of g v).cells v.1 v.2 (unitPeers v.1 v.2) := rfl

/-- One no-contradiction iteration of the propagation loop preserves the
queue invariant: a same-singleton peer pair always keeps a member in the
queue. -/
theorem step_QInv {g : Cells} {Q : List (Nat × Nat)} (hQne : Q ≠ [])
    (hnc : stepContra g (Q.getLast hQne) = false) (hinv : QInv g Q) :
    QInv (stepCells g (Q.getLast hQne)) (stepQueue g (Q.getLast hQne) Q) := by
  obtain ⟨h1, h2, h3⟩ := stepContra_parts hnc
  set c := Q.getLast hQne with hcdef
  have hs01 : ∀ i j, List.Sublist (cellD (r1of g c).cells i j) (cellD g i j) :=
    fun i j => removeFrom_sublist (rowPeers c.1 c.2) g c.1 c.2 i j
  have hs12 : ∀ i j, List.Sublist (cellD (r2of g c).cells i j) (cellD (r1of g c).cells i j) :=
    fun i j => removeFrom_sublist (colPeers c.1 c.2) (r1of g c).cells c.1 c.2 i j
  have hs23 : ∀ i j, List.Sublist (cellD (r3of g c).cells i j) (cellD (r2of g c).cells i j) :=
    fun i j => removeFrom_sublist (unitPeers c.1 c.2) (r2of g c).cells c.1 c.2 i j
  have hG1c : cellD (r1of g c).cells c.1 c.2 = cellD g c.1 c.2 :=
    removeFrom_untouched (rowPeers c.1 c.2) g c.1 c.2 c.1 c.2
      (by simpa using self_not_mem_rowPeers c.1 c.2)
  have hG2c : cellD (r2of g c).cells c.1 c.2 = cellD g c.1 c.2 := by
    have h := removeFrom_untouched (colPeers c.1 c.2) (r1of g c).cells c.1 c.2 c.1 c.2
      (by simpa using self_not_mem_colPeers c.1 c.2)
    exact h.trans hG1c
  have hpeer_no_val : ∀ d, cellD g c.1 c.2 = [d] → ∀ x, InRange9 x → Peers c x →
      d ∉ cellD (stepCells g c) x.1 x.2 := by
    intro d hd x hx hpx hmem
    rcases peers_covered hx hpx with hrow | hcol | hunit
    · have hnot : d ∉ cellD (r1of g c).cells x.1 x.2 :=
        removeFrom_removes_value (rowPeers_nodup c.1 c.2)
          (self_not_mem_rowPeers c.1 c.2) hd h1 x hrow
      exact hnot ((hs12 x.1 x.2).subset ((hs23 x.1 x.2).subset hmem))
    · have hnot : d ∉ cellD (r2of g c).cells x.1 x.2 :=
        removeFrom_removes_value (colPeers_nodup c.1 c.2)
          (self_not_mem_colPeers c.1 c.2) (hG1c.trans hd) h2 x hcol
      exact hnot ((hs23 x.1 x.2).subset hmem)
    · have hnot : d ∉ cellD (r3of g c).cells x.1 x.2 :=
        removeFrom_removes_value (unitPeers_nodup c.1 c.2)
          (self_not_mem_unitPeers c.1 c.2) (hG2c.trans hd) h3 x hunit
      exact hnot hmem
  have hcross : ∀ x : Nat × Nat, 1 < (cellD g x.1 x.2).length →
      (cellD (stepCells g c) x.1 x.2).length = 1 →
      x ∈ (r1of g c).assigned.getD [] ∨ x ∈ (r2of g c).assigned.getD [] ∨
        x ∈ (r3of g c).assigned.getD [] := by
    intro x hx1 hx3
    by_cases hl1 : (cellD (r1of g c).cells x.1 x.2).length = 1
    · left
      exact removeFrom_crossing (rowPeers_nodup c.1 c.2) (self_not_mem_rowPeers c.1 c.2)
        h1 x hx1 hl1
    · by_cases hl2 : (cellD (r2of g c).cells x.1 x.2).length = 1
      · right; left
        have hbig : 1 < (cellD (r1of g c).cells x.1 x.2).length := by
          have hle : (cellD (r2of g c).cells x.1 x.2).length ≤
              (cellD (r1of g c).cells x.1 x.2).length := (hs12 x.1 x.2).length_le
          omega
        exact removeFrom_crossing (colPeers_nodup c.1 c.2) (self_not_mem_colPeers c.1 c.2)
          h2 x hbig hl2
      · right; right
        have hbig : 1 < (cellD (r2of g c).cells x.1 x.2).length := by
          have hle : (cellD (stepCells g c) x.1 x.2).length ≤
              (cellD (r2of g c).cells x.1 x.2).length := (hs23 x.1 x.2).length_le
          omega
        exact removeFrom_crossing (unitPeers_nodup c.1 c.2) (self_not_mem_unitPeers c.1 c.2)
          h3 x hbig hx3
  intro a ha b hb hpeers hlen1 heq
  obtain ⟨w, hw⟩ := length_eq_one_iff.mp hlen1
  have hwb : cellD (stepCells g c) b.1 b.2 = [w] := heq ▸ hw
  have hmemQ' : ∀ x ∈ Q.dropLast, x ∈ stepQueue g c Q := by
    intro x hx
    unfold stepQueue
    exact List.mem_append.mpr (Or.inl (List.mem_append.mpr (Or.inl
      (List.mem_append.mpr (Or.inl hx)))))
  have hmemA1 : ∀ x ∈ (r1of g c).assigned.getD [], x ∈ stepQueue g c Q := by
    intro x hx
    unfold stepQueue
    exact List.mem_append.mpr (Or.inl (List.mem_append.mpr (Or.inl
      (List.mem_append.mpr (Or.inr hx)))))
  have hmemA2 : ∀ x ∈ (r2of g c).assigned.getD [], x ∈ stepQueue g c Q := by
    intro x hx
    unfold stepQueue
    exact List.mem_append.mpr (Or.inl (List.mem_append.mpr (Or.inr hx)))
  have hmemA3 : ∀ x ∈ (r3of g c).assigned.getD [], x ∈ stepQueue g c Q := by
    intro x hx
    unfold stepQueue
    exact List.mem_append.mpr (Or.inr hx)
  by_cases hac : a = c
  · exfalso
    have hw2 := hw
    rw [hac] at hw2
    have hgc : cellD g c.1 c.2 = [w] := (self_untouched_by_step g c).symm.trans hw2
    have hbc : b ≠ c := by
      intro hbc
      obtain ⟨hne, _⟩ := hpeers
      rw [hac, hbc] at hne
      exact hne rfl
    have hpcb : Peers c b := hac ▸ hpeers
    have := hpeer_no_val w hgc b (mem_allCoords.mp hb) hpcb
    apply this
    rw [hwb]
    exact List.mem_singleton_self w
  · by_cases hbc : b = c
    · exfalso
      have hwb2 := hwb
      rw [hbc] at hwb2
      have hgc : cellD g c.1 c.2 = [w] := (self_untouched_by_step g c).symm.trans hwb2
      have hpca : Peers c a := peers_symm (hbc ▸ hpeers)
      have := hpeer_no_val w hgc a (mem_allCoords.mp ha) hpca
      apply this
      rw [hw]
      exact List.mem_singleton_self w
    · -- neither endpoint is the popped cell
      have hwina : w ∈ cellD g a.1 a.2 :=
        (stepCells_sublist g c a.1 a.2).subset (by rw [hw]; exact List.mem_singleton_self w)
      have hwinb : w ∈ cellD g b.1 b.2 :=
        (stepCells_sublist g c b.1 b.2).subset (by rw [hwb]; exact List.mem_singleton_self w)
      by_cases hga : 1 < (cellD g a.1 a.2).length
      · have := hcross a hga (by rw [hw]; rfl)
        rcases this with h | h | h
        · exact Or.inl (hmemA1 a h)
        · exact Or.inl (hmemA2 a h)
        · exact Or.inl (hmemA3 a h)
      · by_cases hgb : 1 < (cellD g b.1 b.2).length
        · have := hcross b hgb (by rw [hwb]; rfl)
          rcases this with h | h | h
          · exact Or.inr (hmemA1 b h)
          · exact Or.inr (hmemA2 b h)
          · exact Or.inr (hmemA3 b h)
        · -- both singleton already in g, with the same value w
          have hgalen : (cellD g a.1 a.2).length = 1 := by
            have : 1 ≤ (cellD g a.1 a.2).length := by
              rcases hl : cellD g a.1 a.2 with _ | ⟨y, ys⟩
              · rw [hl] at hwina; exact absurd hwina (List.not_mem_nil w)
              · simp
            omega
          have hgblen : (cellD g b.1 b.2).length = 1 := by
            have : 1 ≤ (cellD g b.1 b.2).length := by
              rcases hl : cellD g b.1 b.2 with _ | ⟨y, ys⟩
              · rw [hl] at hwinb; exact absurd hwinb (List.not_mem_nil w)
              · simp
            omega
          have hgaw : cellD g a.1 a.2 = [w] := by
            obtain ⟨y, hy⟩ := length_eq_one_iff.mp hgalen
            rw [hy] at hwina
            have hwy : w = y := List.mem_singleton.mp hwina
            rw [hy, ← hwy]
          have hgbw : cellD g b.1 b.2 = [w] := by
            obtain ⟨y, hy⟩ := length_eq_one_iff.mp hgblen
            rw [hy] at hwinb
            have hwy : w = y := List.mem_singleton.mp hwinb
            rw [hy, ← hwy]
          have hinQ := hinv a ha b hb hpeers hgalen (hgaw.trans hgbw.symm)
          rcases hinQ with hq | hq
          · exact Or.inl (hmemQ' a (mem_dropLast_of_ne_last hQne hq hac))
          · exact Or.inr (hmemQ' b (mem_dropLast_of_ne_last hQne hq hbc))

theorem is_solved_iff {g : Cells} :
    is_solved g = true ↔ ∀ p ∈ allCoords, (cellD g p.1 p.2).length = 1 := by
  unfold is_solved
  rw [List.all_eq_true]
  constructor
  · intro h p hp
    have := h p hp
    rwa [beq_iff_eq] at this
  · intro h p hp
    rw [beq_iff_eq]
    exact h p hp

theorem rowPeers_peers {c p : Nat × Nat} (hp : p ∈ rowPeers c.1 c.2) : Peers c p := by
  obtain ⟨h1, _, h3⟩ := mem_rowPeers_iff.mp hp
  refine ⟨?_, Or.inl h1.symm⟩
  intro he
  exact h3 (by rw [← he])

theorem colPeers_peers {c p : Nat × Nat} (hp : p ∈ colPeers c.1 c.2) : Peers c p := by
  obtain ⟨h1, _, h3⟩ := mem_colPeers_iff.mp hp
  refine ⟨?_, Or.inr (Or.inl h1.symm)⟩
  intro he
  exact h3 (by rw [← he])

theorem unitPeers_peers {c p : Nat × Nat} (hp : p ∈ unitPeers c.1 c.2) : Peers c p := by
  obtain ⟨⟨a, ha, b, hb, he⟩, hne⟩ := mem_unitPeers_iff.mp hp
  refine ⟨?_, Or.inr (Or.inr ?_)⟩
  · intro hcontra
    apply hne
    rw [← hcontra]
    exact ⟨rfl, rfl⟩
  · subst he
    simp only
    omega

theorem rowPeers_mem_allCoords {c : Nat × Nat} (hc : c ∈ allCoords) :
    ∀ p ∈ rowPeers c.1 c.2, p ∈ allCoords := by
  intro p hp
  exact mem_allCoords.mpr (rowPeers_range (mem_allCoords.mp hc).1 p hp)

theorem colPeers_mem_allCoords {c : Nat × Nat} (hc : c ∈ allCoords) :
    ∀ p ∈ colPeers c.1 c.2, p ∈ allCoords := by
  intro p hp
  exact mem_allCoords.mpr (colPeers_range (mem_allCoords.mp hc).2 p hp)

theorem unitPeers_mem_allCoords {c : Nat × Nat} (hc : c ∈ allCoords) :
    ∀ p ∈ unitPeers c.1 c.2, p ∈ allCoords := by
  intro p hp
  exact mem_allCoords.mpr
    (unitPeers_range (mem_allCoords.mp hc).1 (mem_allCoords.mp hc).2 p hp)

/-- Queue coordinates stay on the board through one iteration. -/
theorem step_QRange {g : Cells} {Q : List (Nat × Nat)} (hQne : Q ≠ [])
    (hrange : QRange Q) : QRange (stepQueue g (Q.getLast hQne) Q) := by
  set c := Q.getLast hQne with hcdef
  have hc : c ∈ allCoords := hrange c (List.getLast_mem hQne)
  intro x hx
  unfold stepQueue at hx
  rcases List.mem_append.mp hx with hx | hx3
  · rcases List.mem_append.mp hx with hx | hx2
    · rcases List.mem_append.mp hx with hxd | hx1
      · exact hrange x ((List.dropLast_sublist Q).subset hxd)
      · exact rowPeers_mem_allCoords hc x
          (removeFrom_assigned_subset (rowPeers c.1 c.2) g c.1 c.2 x hx1)
    · exact colPeers_mem_allCoords hc x
        (removeFrom_assigned_subset (colPeers c.1 c.2) (r1of g c).cells c.1 c.2 x hx2)
  · exact unitPeers_mem_allCoords hc x
      (removeFrom_assigned_subset (unitPeers c.1 c.2) (r2of g c).cells c.1 c.2 x hx3)

/-- Queued cells keep singleton domains through one no-contradiction
iteration. -/
theorem step_QSingle {g : Cells} {Q : List (Nat × Nat)} (hQne : Q ≠ [])
    (hnc : stepContra g (Q.getLast hQne) = false) (hsingle : QSingle g Q) :
    QSingle (stepCells g (Q.getLast hQne)) (stepQueue g (Q.getLast hQne) Q) := by
  obtain ⟨h1, h2, h3⟩ := stepContra_parts hnc
  set c := Q.getLast hQne with hcdef
  have hkeep12 : ∀ i j, (cellD (r1of g c).cells i j).length = 1 →
      (cellD (r2of g c).cells i j).length = 1 := by
    intro i j hl
    have hle : (cellD (r2of g c).cells i j).length ≤ (cellD (r1of g c).cells i j).length :=
      (removeFrom_sublist (colPeers c.1 c.2) (r1of g c).cells c.1 c.2 i j).length_le
    have hne : cellD (r2of g c).cells i j ≠ [] := by
      intro hnil
      have := removeFrom_nonempty (colPeers c.1 c.2) (r1of g c).cells c.1 c.2 i j hnil
      rw [this] at hl
      exact absurd hl (by simp)
    have : 1 ≤ (cellD (r2of g c).cells i j).length := by
      rcases he : cellD (r2of g c).cells i j with _ | ⟨y, ys⟩
      · exact absurd he hne
      · simp
    omega
  have hkeep23 : ∀ i j, (cellD (r2of g c).cells i j).length = 1 →
      (cellD (r3of g c).cells i j).length = 1 := by
    intro i j hl
    have hle : (cellD (r3of g c).cells i j).length ≤ (cellD (r2of g c).cells i j).length :=
      (removeFrom_sublist (unitPeers c.1 c.2) (r2of g c).cells c.1 c.2 i j).length_le
    have hne : cellD (r3of g c).cells i j ≠ [] := by
      intro hnil
      have := removeFrom_nonempty (unitPeers c.1 c.2) (r2of g c).cells c.1 c.2 i j hnil
      rw [this] at hl
      exact absurd hl (by simp)
    have : 1 ≤ (cellD (r3of g c).cells i j).length := by
      rcases he : cellD (r3of g c).cells i j with _ | ⟨y, ys⟩
      · exact absurd he hne
      · simp
    omega
  have hkeep03 : ∀ i j, (cellD g i j).length = 1 →
      (cellD (stepCells g c) i j).length = 1 := by
    intro i j hl
    have hle : (cellD (stepCells g c) i j).length ≤ (cellD g i j).length :=
      (stepCells_sublist g c i j).length_le
    have hne : cellD (stepCells g c) i j ≠ [] := by
      intro hnil
      have := stepCells_nonempty g c i j hnil
      rw [this] at hl
      exact absurd hl (by simp)
    have : 1 ≤ (cellD (stepCells g c) i j).length := by
      rcases he : cellD (stepCells g c) i j with _ | ⟨y, ys⟩
      · exact absurd he hne
      · simp
    omega
  intro x hx
  unfold stepQueue at hx
  rcases List.mem_append.mp hx with hx | hx3
  · rcases List.mem_append.mp hx with hx | hx2
    · rcases List.mem_append.mp hx with hxd | hx1
      · exact hkeep03 x.1 x.2 (hsingle x ((List.dropLast_sublist Q).subset hxd))
      · have := removeFrom_assigned_single (rowPeers_nodup c.1 c.2)
          (self_not_mem_rowPeers c.1 c.2) h1 x hx1
        exact hkeep23 x.1 x.2 (hkeep12 x.1 x.2 this)
    · have := removeFrom_assigned_single (colPeers_nodup c.1 c.2)
        (self_not_mem_colPeers c.1 c.2) h2 x hx2
      exact hkeep23 x.1 x.2 this
  · exact removeFrom_assigned_single (unitPeers_nodup c.1 c.2)
      (self_not_mem_unitPeers c.1 c.2) h3 x hx3

/-! ### Propagation never contradicts a valid full solution it contains -/

/-- If a removal strips value `d` and the solution assigns every scanned peer
something other than `d`, the removal cannot contradict and the solution
stays contained. -/
theorem removeFrom_preserves_solution :
    ∀ (L : List (Nat × Nat)) (g S : Cells) (row column : Nat) (d : Char),
    (row, column) ∉ L → (∀ p ∈ L, p ∈ allCoords) →
    cellD g row column = [d] →
    (∀ p ∈ L, ∃ e, cellD S p.1 p.2 = [e] ∧ e ≠ d) →
    Contains g S →
    (removeFrom g row column L).contradiction = false ∧
      Contains (removeFrom g row column L).cells S := by
  intro L
  induction L with
  | nil =>
    intro g S row column d _ _ _ _ hcont
    exact ⟨rfl, hcont⟩
  | cons q rest ih =>
    intro g S row column d hrc hrange hval hSpeer hcont
    have hqrc : (row, column) ≠ q := fun h => hrc (by rw [h]; exact List.mem_cons_self _ _)
    have hrcrest : (row, column) ∉ rest := fun h => hrc (List.mem_cons_of_mem q h)
    obtain ⟨e, he, hed⟩ := hSpeer q (List.mem_cons_self _ _)
    have heg : e ∈ cellD g q.1 q.2 := by
      apply hcont q (hrange q (List.mem_cons_self _ _))
      rw [he]
      exact List.mem_singleton_self e
    have hnd : newDomainAt g row column q = (cellD g q.1 q.2).filter (fun x => x ≠ d) := by
      unfold newDomainAt
      rw [hval, pyReplace_singleton]
    have hend : e ∈ newDomainAt g row column q := by
      rw [hnd]
      apply List.mem_filter.mpr
      exact ⟨heg, by simpa using hed⟩
    have h0 : (newDomainAt g row column q).length ≠ 0 := by
      intro hzero
      rw [List.eq_nil_of_length_eq_zero hzero] at hend
      exact absurd hend (List.not_mem_nil e)
    rw [removeFrom_cons_pos rest h0]
    simp only
    set g1 := setCell g q.1 q.2 (newDomainAt g row column q) with hg1
    have holdne : cellD g q.1 q.2 ≠ [] := List.ne_nil_of_mem heg
    have hwrr : cellD g1 q.1 q.2 = newDomainAt g row column q :=
      cellD_setCell_self_of_ne_nil g q.1 q.2 _ holdne
    have hval1 : cellD g1 row column = [d] := by
      have : cellD g1 row column = cellD g row column := by
        apply cellD_setCell_ne
        intro hh
        exact hqrc (Prod.ext hh.1.symm hh.2.symm).symm
      rw [this, hval]
    have hcont1 : Contains g1 S := by
      intro p hp x hx
      by_cases hpq : p.1 = q.1 ∧ p.2 = q.2
      · rw [hpq.1, hpq.2, hwrr]
        have hpsame : cellD S p.1 p.2 = cellD S q.1 q.2 := by rw [hpq.1, hpq.2]
        rw [hpsame, he] at hx
        rw [List.mem_singleton.mp hx]
        exact hend
      · rw [cellD_setCell_ne g q.1 q.2 p.1 p.2 _ hpq]
        exact hcont p hp x hx
    exact ih g1 S row column d hrcrest
      (fun p hp => hrange p (List.mem_cons_of_mem q hp))
      hval1
      (fun p hp => hSpeer p (List.mem_cons_of_mem q hp))
      hcont1

/-- One loop iteration of `consistency` cannot contradict when the grid still
contains a valid solved grid, and the solution stays contained. -/
theorem step_preserves_solution {g S : Cells} {Q : List (Nat × Nat)} (hQne : Q ≠ [])
    (hrangeQ : QRange Q) (hsingle : QSingle g Q)
    (hSshape : Shape9 S) (hSsolved : is_solved S = true) (hSdist : PeerDistinct S)
    (hcont : Contains g S) :
    stepContra g (Q.getLast hQne) = false ∧ Contains (stepCells g (Q.getLast hQne)) S := by
  set c := Q.getLast hQne with hcdef
  have hcQ : c ∈ Q := List.getLast_mem hQne
  have hcA : c ∈ allCoords := hrangeQ c hcQ
  have hclen : (cellD g c.1 c.2).length = 1 := hsingle c hcQ
  obtain ⟨d, hd⟩ := length_eq_one_iff.mp hclen
  have hSsingle : ∀ p ∈ allCoords, ∃ e, cellD S p.1 p.2 = [e] := by
    intro p hp
    exact length_eq_one_iff.mp (is_solved_iff.mp hSsolved p hp)
  have hSc : cellD S c.1 c.2 = [d] := by
    obtain ⟨e, he⟩ := hSsingle c hcA
    have : e ∈ cellD g c.1 c.2 := by
      apply hcont c hcA
      rw [he]
      exact List.mem_singleton_self e
    rw [hd] at this
    rw [List.mem_singleton.mp this] at he
    exact he
  have hSpeerGen : ∀ p, p ∈ allCoords → Peers c p → ∃ e, cellD S p.1 p.2 = [e] ∧ e ≠ d := by
    intro p hp hpeers
    obtain ⟨e, he⟩ := hSsingle p hp
    refine ⟨e, he, ?_⟩
    intro hed
    subst hed
    have hne := hSdist c hcA p hp hpeers (by rw [hSc]; rfl)
    rw [hSc, he] at hne
    exact hne rfl
  have hr1 := removeFrom_preserves_solution (rowPeers c.1 c.2) g S c.1 c.2 d
    (self_not_mem_rowPeers c.1 c.2) (rowPeers_mem_allCoords hcA) hd
    (fun p hp => hSpeerGen p (rowPeers_mem_allCoords hcA p hp) (rowPeers_peers hp))
    hcont
  have hG1c : cellD (r1of g c).cells c.1 c.2 = [d] := by
    have h := removeFrom_untouched (rowPeers c.1 c.2) g c.1 c.2 c.1 c.2
      (by simpa using self_not_mem_rowPeers c.1 c.2)
    exact h.trans hd
  have hr2 := removeFrom_preserves_solution (colPeers c.1 c.2) (r1of g c).cells S c.1 c.2 d
    (self_not_mem_colPeers c.1 c.2) (colPeers_mem_allCoords hcA) hG1c
    (fun p hp => hSpeerGen p (colPeers_mem_allCoords hcA p hp) (colPeers_peers hp))
    hr1.2
  have hG2c : cellD (r2of g c).cells c.1 c.2 = [d] := by
    have h := removeFrom_untouched (colPeers c.1 c.2) (r1of g c).cells c.1 c.2 c.1 c.2
      (by simpa using self_not_mem_colPeers c.1 c.2)
    exact h.trans hG1c
  have hr3 := removeFrom_preserves_solution (unitPeers c.1 c.2) (r2of g c).cells S c.1 c.2 d
    (self_not_mem_unitPeers c.1 c.2) (unitPeers_mem_allCoords hcA) hG2c
    (fun p hp => hSpeerGen p (unitPeers_mem_allCoords hcA p hp) (unitPeers_peers hp))
    hr2.2
  constructor
  · unfold stepContra
    rw [show (r1of g c).contradiction = false from hr1.1,
      show (r2of g c).contradiction = false from hr2.1,
      show (r3of g c).contradiction = false from hr3.1]
    rfl
  · exact hr3.2

/-- Through the whole propagation loop: a grid containing a valid solved grid
never reports a contradiction, and the result still contains it. -/
theorem consistency_preserves_solution :
    ∀ (fuel : Nat) (g S : Cells) (Q : List (Nat × Nat)) (b : Bool) (g2 : Cells),
    QRange Q → QSingle g Q →
    Shape9 S → is_solved S = true → PeerDistinct S →
    Contains g S →
    consistencyF fuel g Q = some (b, g2) →
    b = true ∧ Contains g2 S := by
  intro fuel
  induction fuel with
  | zero =>
    intro g S Q b g2 _ _ _ _ _ _ h
    rw [consistencyF_zero] at h
    exact absurd h (by simp)
  | succ n ih =>
    intro g S Q b g2 hrangeQ hsingle hSshape hSsolved hSdist hcont h
    by_cases hQ : Q = []
    · subst hQ
      rw [consistencyF_succ_nil] at h
      have hb := (Prod.mk.injEq _ _ _ _ ▸ (Option.some_inj.mp h))
      exact ⟨hb.1.symm, hb.2 ▸ hcont⟩
    · obtain ⟨hnc, hcont'⟩ := step_preserves_solution hQ hrangeQ hsingle
        hSshape hSsolved hSdist hcont
      rw [consistencyF_succ n g Q hQ, if_neg (by rw [hnc]; exact Bool.false_ne_true)] at h
      exact ih (stepCells g (Q.getLast hQ)) S (stepQueue g (Q.getLast hQ) Q) b g2
        (step_QRange hQ hrangeQ) (step_QSingle hQ hnc hsingle)
        hSshape hSsolved hSdist hcont' h

/-- When the loop drains the queue without contradiction, the queue invariant
collapses to peer distinctness of the final grid. -/
theorem consistency_peerDistinct :
    ∀ (fuel : Nat) (g : Cells) (Q : List (Nat × Nat)) (g2 : Cells),
    QInv g Q → consistencyF fuel g Q = some (true, g2) → PeerDistinct g2 := by
  intro fuel
  induction fuel with
  | zero =>
    intro g Q g2 _ h
    rw [consistencyF_zero] at h
    exact absurd h (by simp)
  | succ n ih =>
    intro g Q g2 hinv h
    by_cases hQ : Q = []
    · subst hQ
      rw [consistencyF_succ_nil] at h
      have hg2 := (Prod.mk.injEq _ _ _ _ ▸ (Option.some_inj.mp h)).2
      subst hg2
      intro a ha b hb hpeers hlen heq
      rcases hinv a ha b hb hpeers hlen heq with hq | hq
      · exact absurd hq (List.not_mem_nil a)
      · exact absurd hq (List.not_mem_nil b)
    · rw [consistencyF_succ n g Q hQ] at h
      by_cases hc : stepContra g (Q.getLast hQ)
      · rw [if_pos hc] at h
        have := (Prod.mk.injEq _ _ _ _ ▸ (Option.some_inj.mp h)).1
        exact absurd this (by simp)
      · rw [if_neg hc] at h
        exact ih _ _ g2 (step_QInv hQ (Bool.not_eq_true _ ▸ hc) hinv) h

/-! ### Residual preservation lemmas for the whole propagation loop -/

theorem consistency_shape9 : ∀ (fuel : Nat) (g : Cells) (Q : List (Nat × Nat)) (b : Bool)
    (g2 : Cells), Shape9 g → consistencyF fuel g Q = some (b, g2) → Shape9 g2 := by
  intro fuel
  induction fuel with
  | zero => intro g Q b g2 _ h; exact absurd h (by simp [consistencyF_zero])
  | succ n ih =>
    intro g Q b g2 hg h
    by_cases hQ : Q = []
    · subst hQ
      rw [consistencyF_succ_nil] at h
      have := (Prod.mk.injEq _ _ _ _ ▸ (Option.some_inj.mp h)).2
      exact this ▸ hg
    · rw [consistencyF_succ n g Q hQ] at h
      by_cases hc : stepContra g (Q.getLast hQ)
      · rw [if_pos hc] at h
        have := (Prod.mk.injEq _ _ _ _ ▸ (Option.some_inj.mp h)).2
        exact this ▸ stepCells_shape9 hg _
      · rw [if_neg hc] at h
        exact ih _ _ b g2 (stepCells_shape9 hg _) h

theorem consistency_sublist : ∀ (fuel : Nat) (g : Cells) (Q : List (Nat × Nat)) (b : Bool)
    (g2 : Cells), consistencyF fuel g Q = some (b, g2) →
    ∀ i j, List.Sublist (cellD g2 i j) (cellD g i j) := by
  intro fuel
  induction fuel with
  | zero => intro g Q b g2 h; exact absurd h (by simp [consistencyF_zero])
  | succ n ih =>
    intro g Q b g2 h i j
    by_cases hQ : Q = []
    · subst hQ
      rw [consistencyF_succ_nil] at h
      have := (Prod.mk.injEq _ _ _ _ ▸ (Option.some_inj.mp h)).2
      rw [← this]
    · rw [consistencyF_succ n g Q hQ] at h
      by_cases hc : stepContra g (Q.getLast hQ)
      · rw [if_pos hc] at h
        have := (Prod.mk.injEq _ _ _ _ ▸ (Option.some_inj.mp h)).2
        rw [← this]
        exact stepCells_sublist g _ i j
      · rw [if_neg hc] at h
        exact (ih _ _ b g2 h i j).trans (stepCells_sublist g _ i j)

theorem consistency_nonempty : ∀ (fuel : Nat) (g : Cells) (Q : List (Nat × Nat)) (b : Bool)
    (g2 : Cells), consistencyF fuel g Q = some (b, g2) →
    ∀ i j, cellD g2 i j = [] → cellD g i j = [] := by
  intro fuel
  induction fuel with
  | zero => intro g Q b g2 h; exact absurd h (by simp [consistencyF_zero])
  | succ n ih =>
    intro g Q b g2 h i j hnil
    by_cases hQ : Q = []
    · subst hQ
      rw [consistencyF_succ_nil] at h
      have := (Prod.mk.injEq _ _ _ _ ▸ (Option.some_inj.mp h)).2
      rw [this]
      exact hnil
    · rw [consistencyF_succ n g Q hQ] at h
      by_cases hc : stepContra g (Q.getLast hQ)
      · rw [if_pos hc] at h
        have := (Prod.mk.injEq _ _ _ _ ▸ (Option.some_inj.mp h)).2
        apply stepCells_nonempty g _ i j
        rw [this]
        exact hnil
      · rw [if_neg hc] at h
        exact stepCells_nonempty g _ i j (ih _ _ b g2 h i j hnil)

theorem le_sum_map_of_mem {α : Type} {l : List α} {f : α → Nat} {x : α} (hx : x ∈ l) :
    f x ≤ (l.map f).sum := by
  induction l with
  | nil => exact absurd hx (List.not_mem_nil x)
  | cons a t ih =>
    simp only [List.map_cons, List.sum_cons]
    rcases List.mem_cons.mp hx with hxa | hxt
    · subst hxa; omega
    · have := ih hxt; omega

theorem excess_pos_of_cell {g : Cells} {v : Nat × Nat} (hv : v ∈ allCoords)
    (hlen : 1 < (cellD g v.1 v.2).length) : 1 ≤ totalExcess g := by
  unfold totalExcess
  have h2 := @le_sum_map_of_mem _ allCoords (fun p => (cellD g p.1 p.2).length - 1) v hv
  simp only at h2
  omega

theorem totalExcess_assign_lt {g : Cells} {v : Nat × Nat} (hg : Shape9 g)
    (hv : v ∈ allCoords) (hlen : 1 < (cellD g v.1 v.2).length) (value : Char) :
    totalExcess (setCell g v.1 v.2 [value]) + 1 ≤ totalExcess g := by
  have hv9 := mem_allCoords.mp hv
  have hwr : cellD (setCell g v.1 v.2 [value]) v.1 v.2 = [value] :=
    cellD_setCell_self_inrange hg hv9.1 hv9.2 [value]
  unfold totalExcess
  apply sum_map_succ_le allCoords _ _ v hv
  · intro p _
    by_cases hpv : p.1 = v.1 ∧ p.2 = v.2
    · rw [hpv.1, hpv.2, hwr]
      simp only [List.length_singleton]
      omega
    · rw [cellD_setCell_ne g v.1 v.2 p.1 p.2 _ hpv]
  · rw [hwr]
    simp only [List.length_singleton]
    omega

/-- A grid that still contains a peer-distinct solved grid is itself
peer distinct. -/
theorem contains_peerDistinct {g S : Cells} (hSshape : Shape9 S)
    (hSsolved : is_solved S = true) (hSdist : PeerDistinct S) (hcont : Contains g S) :
    PeerDistinct g := by
  intro a ha b hb hpeers hlen heq
  obtain ⟨w, hw⟩ := length_eq_one_iff.mp hlen
  obtain ⟨ea, hea⟩ := length_eq_one_iff.mp (is_solved_iff.mp hSsolved a ha)
  obtain ⟨eb, heb⟩ := length_eq_one_iff.mp (is_solved_iff.mp hSsolved b hb)
  have hea_in : ea ∈ cellD g a.1 a.2 := hcont a ha ea (by rw [hea]; exact List.mem_singleton_self ea)
  have heb_in : eb ∈ cellD g b.1 b.2 := hcont b hb eb (by rw [heb]; exact List.mem_singleton_self eb)
  rw [hw] at hea_in
  rw [← heq, hw] at heb_in
  have h1 : ea = w := List.mem_singleton.mp hea_in
  have h2 : eb = w := List.mem_singleton.mp heb_in
  have := hSdist a ha b hb hpeers (by rw [hea]; rfl)
  rw [hea, heb, h1, h2] at this
  exact this rfl

/-! ### The variable selectors -/

theorem faGo_mem : ∀ (l : List (Nat × Nat)) (g : Cells) (p : Nat × Nat),
    faGo g l = some p → p ∈ l ∧ 1 < (cellD g p.1 p.2).length := by
  intro l
  induction l with
  | nil => intro g p h; exact absurd h (by simp [faGo])
  | cons q rest ih =>
    intro g p h
    rw [faGo] at h
    split at h
    · rename_i hq
      have := Option.some_inj.mp h
      subst this
      exact ⟨List.mem_cons_self _ _, hq⟩
    · obtain ⟨hmem, hlen⟩ := ih g p h
      exact ⟨List.mem_cons_of_mem q hmem, hlen⟩

theorem faGo_isSome : ∀ (l : List (Nat × Nat)) (g : Cells),
    (∃ p ∈ l, 1 < (cellD g p.1 p.2).length) → (faGo g l).isSome := by
  intro l
  induction l with
  | nil => rintro g ⟨p, hp, _⟩; exact absurd hp (List.not_mem_nil p)
  | cons q rest ih =>
    rintro g ⟨p, hp, hlen⟩
    rw [faGo]
    split
    · rfl
    · rename_i hq
      apply ih
      rcases List.mem_cons.mp hp with hpq | hpr
      · subst hpq; exact absurd hlen hq
      · exact ⟨p, hpr, hlen⟩

theorem mrvGo_nil (g : Cells) (rv : Option Nat) (var : Option (Nat × Nat)) :
    mrvGo g [] rv var = var := rfl

theorem mrvGo_cons_none (g : Cells) (q : Nat × Nat) (rest : List (Nat × Nat))
    (var : Option (Nat × Nat)) :
    mrvGo g (q :: rest) none var =
      if 1 < (cellD g q.1 q.2).length then
        mrvGo g rest (some (cellD g q.1 q.2).length) (some q)
      else mrvGo g rest none var := rfl

theorem mrvGo_cons_some (g : Cells) (q : Nat × Nat) (rest : List (Nat × Nat)) (r : Nat)
    (var : Option (Nat × Nat)) :
    mrvGo g (q :: rest) (some r) var =
      if 1 < (cellD g q.1 q.2).length then
        (if (cellD g q.1 q.2).length < r then
          mrvGo g rest (some (cellD g q.1 q.2).length) (some q)
        else mrvGo g rest (some r) var)
      else mrvGo g rest (some r) var := rfl

theorem mrvGo_spec : ∀ (l : List (Nat × Nat)) (g : Cells) (rv : Option Nat)
    (var : Option (Nat × Nat)) (p : Nat × Nat), mrvGo g l rv var = some p →
    (p ∈ l ∧ 1 < (cellD g p.1 p.2).length) ∨ var = some p := by
  intro l
  induction l with
  | nil => intro g rv var p h; exact Or.inr h
  | cons q rest ih =>
    intro g rv var p h
    by_cases hq : 1 < (cellD g q.1 q.2).length
    · rcases rv with _ | r
      · rw [mrvGo_cons_none, if_pos hq] at h
        rcases ih g _ _ p h with ⟨hm, hl⟩ | hv
        · exact Or.inl ⟨List.mem_cons_of_mem q hm, hl⟩
        · have := Option.some_inj.mp hv
          subst this
          exact Or.inl ⟨List.mem_cons_self _ _, hq⟩
      · rw [mrvGo_cons_some, if_pos hq] at h
        by_cases hlt : (cellD g q.1 q.2).length < r
        · rw [if_pos hlt] at h
          rcases ih g _ _ p h with ⟨hm, hl⟩ | hv
          · exact Or.inl ⟨List.mem_cons_of_mem q hm, hl⟩
          · have := Option.some_inj.mp hv
            subst this
            exact Or.inl ⟨List.mem_cons_self _ _, hq⟩
        · rw [if_neg hlt] at h
          rcases ih g _ _ p h with ⟨hm, hl⟩ | hv
          · exact Or.inl ⟨List.mem_cons_of_mem q hm, hl⟩
          · exact Or.inr hv
    · rcases rv with _ | r
      · rw [mrvGo_cons_none, if_neg hq] at h
        rcases ih g _ _ p h with ⟨hm, hl⟩ | hv
        · exact Or.inl ⟨List.mem_cons_of_mem q hm, hl⟩
        · exact Or.inr hv
      · rw [mrvGo_cons_some, if_neg hq] at h
        rcases ih g _ _ p h with ⟨hm, hl⟩ | hv
        · exact Or.inl ⟨List.mem_cons_of_mem q hm, hl⟩
        · exact Or.inr hv

theorem mrvGo_isSome : ∀ (l : List (Nat × Nat)) (g : Cells) (rv : Option Nat)
    (var : Option (Nat × Nat)), (rv.isSome → var.isSome) →
    ((∃ p ∈ l, 1 < (cellD g p.1 p.2).length) ∨ var.isSome) → (mrvGo g l rv var).isSome := by
  intro l
  induction l with
  | nil =>
    rintro g rv var _ (⟨p, hp, _⟩ | hvar)
    · exact absurd hp (List.not_mem_nil p)
    · exact hvar
  | cons q rest ih =>
    rintro g rv var hrvvar hh
    by_cases hq : 1 < (cellD g q.1 q.2).length
    · rcases rv with _ | r
      · rw [mrvGo_cons_none, if_pos hq]
        exact ih g _ _ (fun _ => rfl) (Or.inr rfl)
      · rw [mrvGo_cons_some, if_pos hq]
        by_cases hlt : (cellD g q.1 q.2).length < r
        · rw [if_pos hlt]
          exact ih g _ _ (fun _ => rfl) (Or.inr rfl)
        · rw [if_neg hlt]
          exact ih g _ _ hrvvar (Or.inr (hrvvar rfl))
    · have htail : (∃ p ∈ rest, 1 < (cellD g p.1 p.2).length) ∨ var.isSome = true := by
        rcases hh with ⟨p, hp, hlen⟩ | hvar
        · rcases List.mem_cons.mp hp with hpq | hpr
          · subst hpq; exact absurd hlen hq
          · exact Or.inl ⟨p, hpr, hlen⟩
        · exact Or.inr hvar
      rcases rv with _ | r
      · rw [mrvGo_cons_none, if_neg hq]
        exact ih g _ _ hrvvar htail
      · rw [mrvGo_cons_some, if_neg hq]
        exact ih g _ _ hrvvar htail

theorem unsolved_has_open_cell {g : Cells} (hne : DomsNonempty g)
    (hunsolved : is_solved g = false) : ∃ p ∈ allCoords, 1 < (cellD g p.1 p.2).length := by
  have hnot : ¬ ∀ p ∈ allCoords, (cellD g p.1 p.2).length = 1 := by
    intro hall
    rw [is_solved_iff.mpr hall] at hunsolved
    exact absurd hunsolved (by simp)
  push_neg at hnot
  obtain ⟨p, hp, hlen⟩ := hnot
  refine ⟨p, hp, ?_⟩
  have h1 : 1 ≤ (cellD g p.1 p.2).length := by
    rcases he : cellD g p.1 p.2 with _ | ⟨y, ys⟩
    · exact absurd he (hne p hp)
    · simp
  omega

theorem firstAvailable_selSpec : SelSpec FirstAvailable.select_variable := by
  constructor
  · intro g v h
    exact faGo_mem allCoords g v h
  · intro g _ hne hunsolved
    exact faGo_isSome allCoords g (unsolved_has_open_cell hne hunsolved)

theorem mrv_selSpec : SelSpec MRV.select_variable := by
  constructor
  · intro g v h
    rcases mrvGo_spec allCoords g none none v h with ⟨hm, hl⟩ | hv
    · exact ⟨hm, hl⟩
    · exact absurd hv (by simp)
  · intro g _ hne hunsolved
    exact mrvGo_isSome allCoords g none none (by intro h; exact absurd h (by simp))
      (Or.inl (unsolved_has_open_cell hne hunsolved))

/-! ### Backtracking search: unfolding, soundness, totality, completeness -/

theorem searchF_zero (sel : Cells → Option (Nat × Nat)) (g : Cells) :
    searchF sel 0 g = none := rfl

theorem searchF_succ_solved {g : Cells} (sel : Cells → Option (Nat × Nat)) (fuel : Nat)
    (hsolved : is_solved g = true) : searchF sel (fuel + 1) g = some (some g) := by
  rw [searchF, if_pos hsolved]

theorem searchF_succ_selnone {g : Cells} {sel : Cells → Option (Nat × Nat)} (fuel : Nat)
    (hsolved : is_solved g = false) (hsel : sel g = none) :
    searchF sel (fuel + 1) g = none := by
  rw [searchF, if_neg (by rw [hsolved]; exact Bool.false_ne_true), hsel]

theorem searchF_succ_selsome {g : Cells} {sel : Cells → Option (Nat × Nat)} {v : Nat × Nat}
    (fuel : Nat) (hsolved : is_solved g = false) (hsel : sel g = some v) :
    searchF sel (fuel + 1) g = tryVals (searchF sel fuel) g v (cellD g v.1 v.2) := by
  rw [searchF, if_neg (by rw [hsolved]; exact Bool.false_ne_true), hsel]

theorem tryVals_nil (rec : Cells → Option (Option Cells)) (g : Cells) (v : Nat × Nat) :
    tryVals rec g v [] = some none := rfl

theorem tryVals_cons (rec : Cells → Option (Option Cells)) (g : Cells) (v : Nat × Nat)
    (value : Char) (rest : List Char) :
    tryVals rec g v (value :: rest) =
      if (consistencyT (setCell g v.1 v.2 [value]) [v]).1 then
        match rec (consistencyT (setCell g v.1 v.2 [value]) [v]).2 with
        | none => none
        | some (some rb) => some (some rb)
        | some none => tryVals rec g v rest
      else tryVals rec g v rest := rfl

/-- The consistency run of a trial branch, in `consistencyF` form. -/
theorem branch_consistency {g : Cells} (hg : Shape9 g) (v : Nat × Nat) (value : Char) :
    consistencyF (consistencyBound (setCell g v.1 v.2 [value]) [v])
        (setCell g v.1 v.2 [value]) [v] =
      some ((consistencyT (setCell g v.1 v.2 [value]) [v]).1,
        (consistencyT (setCell g v.1 v.2 [value]) [v]).2) := by
  have h := consistencyT_eq (Shape9_setCell hg v.1 v.2 [value]) [v]
  rw [h]

/-- The trial branch starts with the queue invariant: the only possibly
clashing singleton is the freshly assigned cell, and it is in the queue. -/
theorem branch_QInv {g : Cells} {v : Nat × Nat} (hdist : PeerDistinct g) (value : Char) :
    QInv (setCell g v.1 v.2 [value]) [v] := by
  intro a ha b hb hpeers hlen heq
  by_cases hav : a = v
  · exact Or.inl (by rw [hav]; exact List.mem_singleton_self v)
  · by_cases hbv : b = v
    · exact Or.inr (by rw [hbv]; exact List.mem_singleton_self v)
    · exfalso
      have hanev : ¬(a.1 = v.1 ∧ a.2 = v.2) := by
        intro hh
        exact hav (Prod.ext hh.1 hh.2)
      have hbnev : ¬(b.1 = v.1 ∧ b.2 = v.2) := by
        intro hh
        exact hbv (Prod.ext hh.1 hh.2)
      rw [cellD_setCell_ne g v.1 v.2 a.1 a.2 _ hanev] at hlen heq
      rw [cellD_setCell_ne g v.1 v.2 b.1 b.2 _ hbnev] at heq
      exact hdist a ha b hb hpeers hlen heq

/-- Soundness invariants of one candidate loop, given that the recursive call
is sound. -/
theorem tryVals_sound : ∀ (vals : List Char) (rec : Cells → Option (Option Cells))
    (g : Cells) (v : Nat × Nat) (R : Cells),
    v ∈ allCoords → Shape9 g → DomsSub g → PeerDistinct g →
    (∀ c ∈ vals, c ∈ cellD g v.1 v.2) →
    (∀ g2 R2, Shape9 g2 → DomsSub g2 → PeerDistinct g2 → rec g2 = some (some R2) →
      Shape9 R2 ∧ is_solved R2 = true ∧ PeerDistinct R2 ∧ DomsSub R2 ∧
        (∀ i j, List.Sublist (cellD R2 i j) (cellD g2 i j))) →
    tryVals rec g v vals = some (some R) →
    Shape9 R ∧ is_solved R = true ∧ PeerDistinct R ∧ DomsSub R ∧
      (∀ i j, List.Sublist (cellD R i j) (cellD g i j)) := by
  intro vals
  induction vals with
  | nil =>
    intro rec g v R _ _ _ _ _ _ h
    rw [tryVals_nil] at h
    exact absurd (Option.some_inj.mp h) (by simp)
  | cons value rest ih =>
    intro rec g v R hv hg hsub hdist hvals hrec h
    have hv9 := mem_allCoords.mp hv
    have hgc : Shape9 (setCell g v.1 v.2 [value]) := Shape9_setCell hg v.1 v.2 [value]
    have hwr : cellD (setCell g v.1 v.2 [value]) v.1 v.2 = [value] :=
      cellD_setCell_self_inrange hg hv9.1 hv9.2 [value]
    have hgcsub : ∀ i j, List.Sublist (cellD (setCell g v.1 v.2 [value]) i j) (cellD g i j) := by
      intro i j
      by_cases hij : i = v.1 ∧ j = v.2
      · rw [hij.1, hij.2, hwr]
        exact List.singleton_sublist.mpr (hvals value (List.mem_cons_self _ _))
      · rw [cellD_setCell_ne g v.1 v.2 i j _ hij]
    rw [tryVals_cons] at h
    by_cases hres : (consistencyT (setCell g v.1 v.2 [value]) [v]).1
    · rw [if_pos hres] at h
      have hcF := branch_consistency hg v value
      have hshape2 : Shape9 (consistencyT (setCell g v.1 v.2 [value]) [v]).2 :=
        consistency_shape9 _ _ _ _ _ hgc hcF
      have hsub2 : ∀ i j, List.Sublist
          (cellD (consistencyT (setCell g v.1 v.2 [value]) [v]).2 i j) (cellD g i j) := by
        intro i j
        exact (consistency_sublist _ _ _ _ _ hcF i j).trans (hgcsub i j)
      have hdoms2 : DomsSub (consistencyT (setCell g v.1 v.2 [value]) [v]).2 := by
        intro p hp c hc
        exact hsub p hp c ((hsub2 p.1 p.2).subset hc)
      have hdist2 : PeerDistinct (consistencyT (setCell g v.1 v.2 [value]) [v]).2 := by
        apply consistency_peerDistinct _ _ _ _ (branch_QInv hdist value)
        rw [hres] at hcF
        exact hcF
      rcases hrecres : rec (consistencyT (setCell g v.1 v.2 [value]) [v]).2 with _ | r2
      · rw [hrecres] at h
        exact absurd h (by simp)
      · rcases r2 with _ | R2
        · rw [hrecres] at h
          simp only at h
          exact ih rec g v R hv hg hsub hdist
            (fun c hc => hvals c (List.mem_cons_of_mem value hc)) hrec h
        · rw [hrecres] at h
          simp only at h
          have hRR2 : R2 = R := by
            have := Option.some_inj.mp h
            exact Option.some_inj.mp this
          subst hRR2
          obtain ⟨ha, hb, hc, hd, he⟩ := hrec _ R2 hshape2 hdoms2 hdist2 hrecres
          exact ⟨ha, hb, hc, hd, fun i j => (he i j).trans (hsub2 i j)⟩
    · rw [if_neg hres] at h
      exact ih rec g v R hv hg hsub hdist
        (fun c hc => hvals c (List.mem_cons_of_mem value hc)) hrec h

/-- Soundness of `search`: a returned grid is solved, peer distinct, digit
only, and refines the input grid cell by cell. -/
theorem searchF_sound : ∀ (fuel : Nat) (sel : Cells → Option (Nat × Nat)) (g R : Cells),
    (∀ g2 v, sel g2 = some v → v ∈ allCoords) →
    Shape9 g → DomsSub g → PeerDistinct g →
    searchF sel fuel g = some (some R) →
    Shape9 R ∧ is_solved R = true ∧ PeerDistinct R ∧ DomsSub R ∧
      (∀ i j, List.Sublist (cellD R i j) (cellD g i j)) := by
  intro fuel
  induction fuel with
  | zero =>
    intro sel g R _ _ _ _ h
    rw [searchF_zero] at h
    exact absurd h (by simp)
  | succ n ih =>
    intro sel g R hselmem hg hsub hdist h
    by_cases hsolved : is_solved g = true
    · rw [searchF_succ_solved sel n hsolved] at h
      have : g = R := Option.some_inj.mp (Option.some_inj.mp h)
      subst this
      exact ⟨hg, hsolved, hdist, hsub, fun i j => List.Sublist.refl _⟩
    · have hsf : is_solved g = false := Bool.not_eq_true _ ▸ hsolved
      rcases hsel : sel g with _ | v
      · rw [searchF_succ_selnone n hsf hsel] at h
        exact absurd h (by simp)
      · rw [searchF_succ_selsome n hsf hsel] at h
        exact tryVals_sound (cellD g v.1 v.2) (searchF sel n) g v R
          (hselmem g v hsel) hg hsub hdist (fun c hc => hc)
          (fun g2 R2 h1 h2 h3 h4 => ih sel g2 R2 hselmem h1 h2 h3 h4) h

/-- The branch grids of the candidate loop keep shrinking the total excess. -/
theorem branch_excess_lt {g : Cells} {v : Nat × Nat} (hg : Shape9 g) (hv : v ∈ allCoords)
    (hlen : 1 < (cellD g v.1 v.2).length) (value : Char) :
    totalExcess (consistencyT (setCell g v.1 v.2 [value]) [v]).2 < totalExcess g := by
  have hassign := totalExcess_assign_lt hg hv hlen value
  have hcF := branch_consistency hg v value
  have hmono : totalExcess (consistencyT (setCell g v.1 v.2 [value]) [v]).2 ≤
      totalExcess (setCell g v.1 v.2 [value]) := by
    apply totalExcess_mono
    intro p _
    exact (consistency_sublist _ _ _ _ _ hcF p.1 p.2).length_le
  omega

theorem branch_nonempty {g : Cells} {v : Nat × Nat} (hg : Shape9 g) (hv : v ∈ allCoords)
    (hne : DomsNonempty g) (value : Char) :
    DomsNonempty (consistencyT (setCell g v.1 v.2 [value]) [v]).2 := by
  have hv9 := mem_allCoords.mp hv
  have hcF := branch_consistency hg v value
  intro p hp hnil
  have h2 := consistency_nonempty _ _ _ _ _ hcF p.1 p.2 hnil
  by_cases hpv : p.1 = v.1 ∧ p.2 = v.2
  · rw [hpv.1, hpv.2, cellD_setCell_self_inrange hg hv9.1 hv9.2 [value]] at h2
    exact absurd h2 (by simp)
  · rw [cellD_setCell_ne g v.1 v.2 p.1 p.2 _ hpv] at h2
    exact hne p hp h2

theorem tryVals_total : ∀ (vals : List Char) (rec : Cells → Option (Option Cells))
    (g : Cells) (v : Nat × Nat),
    Shape9 g → DomsNonempty g → v ∈ allCoords → 1 < (cellD g v.1 v.2).length →
    (∀ g2, Shape9 g2 → DomsNonempty g2 → totalExcess g2 < totalExcess g → rec g2 ≠ none) →
    tryVals rec g v vals ≠ none := by
  intro vals
  induction vals with
  | nil =>
    intro rec g v _ _ _ _ _ h
    rw [tryVals_nil] at h
    exact absurd h (by simp)
  | cons value rest ih =>
    intro rec g v hg hne hv hlen hrec h
    rw [tryVals_cons] at h
    by_cases hres : (consistencyT (setCell g v.1 v.2 [value]) [v]).1
    · rw [if_pos hres] at h
      have hshape2 : Shape9 (consistencyT (setCell g v.1 v.2 [value]) [v]).2 :=
        consistency_shape9 _ _ _ _ _ (Shape9_setCell hg v.1 v.2 [value])
          (branch_consistency hg v value)
      have hne2 := branch_nonempty hg hv hne value
      have hlt2 := branch_excess_lt hg hv hlen value
      rcases hrecres : rec (consistencyT (setCell g v.1 v.2 [value]) [v]).2 with _ | r2
      · exact hrec _ hshape2 hne2 hlt2 hrecres
      · rcases r2 with _ | R2
        · rw [hrecres] at h
          simp only at h
          exact ih rec g v hg hne hv hlen hrec h
        · rw [hrecres] at h
          exact absurd h (by simp)
    · rw [if_neg hres] at h
      exact ih rec g v hg hne hv hlen hrec h

/-- `search` always returns within `totalExcess + 1` recursion depth: the
fuel renders no behavior of the source unreachable. -/
theorem searchF_total : ∀ (fuel : Nat) (sel : Cells → Option (Nat × Nat)) (g : Cells),
    SelSpec sel → Shape9 g → DomsNonempty g → totalExcess g < fuel →
    searchF sel fuel g ≠ none := by
  intro fuel
  induction fuel with
  | zero => intro sel g _ _ _ h; omega
  | succ n ih =>
    intro sel g hspec hg hne hfuel
    by_cases hsolved : is_solved g = true
    · rw [searchF_succ_solved sel n hsolved]
      simp
    · have hsf : is_solved g = false := Bool.not_eq_true _ ▸ hsolved
      have hsome := hspec.2 g hg hne hsf
      rcases hsel : sel g with _ | v
      · rw [hsel] at hsome
        exact absurd hsome (by simp)
      · obtain ⟨hvmem, hvlen⟩ := hspec.1 g v hsel
        rw [searchF_succ_selsome n hsf hsel]
        apply tryVals_total (cellD g v.1 v.2) (searchF sel n) g v hg hne hvmem hvlen
        intro g2 h1 h2 h3
        exact ih sel g2 hspec h1 h2 (by omega)

/-- Completeness of `search` under a uniqueness assumption: when the grid
still contains a peer-distinct solved grid `S` and `S` is the only such grid
refining it, the search returns exactly `S`, with either selector behavior
abstracted by `SelSpec`. -/
theorem searchF_complete : ∀ (fuel : Nat) (sel : Cells → Option (Nat × Nat)) (g S : Cells),
    SelSpec sel →
    Shape9 g → DomsNonempty g → DomsSub g →
    Shape9 S → is_solved S = true → PeerDistinct S →
    Contains g S →
    (∀ R, Shape9 R → is_solved R = true → PeerDistinct R → DomsSub R → Contains g R → R = S) →
    totalExcess g < fuel →
    searchF sel fuel g = some (some S) := by
  intro fuel
  induction fuel with
  | zero =>
    intro sel g S _ _ _ _ _ _ _ _ _ hfuel
    omega
  | succ n ih =>
    intro sel g S hspec hg hne hsub hSshape hSsolved hSdist hcont huniq hfuel
    have hdist : PeerDistinct g := contains_peerDistinct hSshape hSsolved hSdist hcont
    by_cases hsolved : is_solved g = true
    · rw [searchF_succ_solved sel n hsolved]
      have hgS : g = S := by
        apply cells_ext hg hSshape
        intro i j hi hj
        have hpA : (i, j) ∈ allCoords := mem_allCoords.mpr ⟨hi, hj⟩
        obtain ⟨x, hx⟩ := length_eq_one_iff.mp (is_solved_iff.mp hsolved (i, j) hpA)
        obtain ⟨e, he⟩ := length_eq_one_iff.mp (is_solved_iff.mp hSsolved (i, j) hpA)
        have hin : e ∈ cellD g i j :=
          hcont (i, j) hpA e (by rw [he]; exact List.mem_singleton_self e)
        rw [hx] at hin
        rw [hx, he, List.mem_singleton.mp hin]
      rw [hgS]
    · have hsf : is_solved g = false := Bool.not_eq_true _ ▸ hsolved
      have hsome := hspec.2 g hg hne hsf
      rcases hsel : sel g with _ | v
      · rw [hsel] at hsome
        exact absurd hsome (by simp)
      · obtain ⟨hvmem, hvlen⟩ := hspec.1 g v hsel
        have hv9 := mem_allCoords.mp hvmem
        obtain ⟨e, he⟩ := length_eq_one_iff.mp (is_solved_iff.mp hSsolved v hvmem)
        have heg : e ∈ cellD g v.1 v.2 :=
          hcont v hvmem e (by rw [he]; exact List.mem_singleton_self e)
        rw [searchF_succ_selsome n hsf hsel]
        have hinner : ∀ vals, (∀ c ∈ vals, c ∈ cellD g v.1 v.2) → e ∈ vals →
            tryVals (searchF sel n) g v vals = some (some S) := by
          intro vals
          induction vals with
          | nil =>
            intro _ habs
            exact absurd habs (List.not_mem_nil e)
          | cons value rest ihv =>
            intro hvals hemem
            have hgcShape : Shape9 (setCell g v.1 v.2 [value]) := Shape9_setCell hg v.1 v.2 _
            have hwr : cellD (setCell g v.1 v.2 [value]) v.1 v.2 = [value] :=
              cellD_setCell_self_inrange hg hv9.1 hv9.2 [value]
            have hgcsub : ∀ i j,
                List.Sublist (cellD (setCell g v.1 v.2 [value]) i j) (cellD g i j) := by
              intro i j
              by_cases hij : i = v.1 ∧ j = v.2
              · rw [hij.1, hij.2, hwr]
                exact List.singleton_sublist.mpr (hvals value (List.mem_cons_self _ _))
              · rw [cellD_setCell_ne g v.1 v.2 i j _ hij]
            have hcF := branch_consistency hg v value
            have hsub2 : ∀ i j, List.Sublist
                (cellD (consistencyT (setCell g v.1 v.2 [value]) [v]).2 i j) (cellD g i j) :=
              fun i j => (consistency_sublist _ _ _ _ _ hcF i j).trans (hgcsub i j)
            have hshape2 : Shape9 (consistencyT (setCell g v.1 v.2 [value]) [v]).2 :=
              consistency_shape9 _ _ _ _ _ hgcShape hcF
            have hne2 := branch_nonempty hg hvmem hne value
            have hdoms2 : DomsSub (consistencyT (setCell g v.1 v.2 [value]) [v]).2 :=
              fun p hp c hc => hsub p hp c ((hsub2 p.1 p.2).subset hc)
            have hlt2 := branch_excess_lt hg hvmem hvlen value
            rw [tryVals_cons]
            by_cases hve : value = e
            · -- the solution's candidate: propagation succeeds and recursion finds S
              have hcontgc : Contains (setCell g v.1 v.2 [value]) S := by
                intro p hp x hx
                by_cases hpv : p.1 = v.1 ∧ p.2 = v.2
                · rw [hpv.1, hpv.2, hwr]
                  have hxe : x = e := by
                    have : cellD S p.1 p.2 = [e] := by rw [hpv.1, hpv.2, he]
                    rw [this] at hx
                    exact List.mem_singleton.mp hx
                  rw [hxe, hve]
                  exact List.mem_singleton_self e
                · rw [cellD_setCell_ne g v.1 v.2 p.1 p.2 _ hpv]
                  exact hcont p hp x hx
              have hQR : QRange [v] := by
                intro q hq
                rw [List.mem_singleton.mp hq]
                exact hvmem
              have hQS : QSingle (setCell g v.1 v.2 [value]) [v] := by
                intro q hq
                rw [List.mem_singleton.mp hq, hwr]
                rfl
              obtain ⟨hb, hcont2⟩ := consistency_preserves_solution _ _ S [v] _ _
                hQR hQS hSshape hSsolved hSdist hcontgc hcF
              rw [if_pos hb]
              have huniq2 : ∀ R, Shape9 R → is_solved R = true → PeerDistinct R → DomsSub R →
                  Contains (consistencyT (setCell g v.1 v.2 [value]) [v]).2 R → R = S := by
                intro R h1 h2 h3 h3b h4
                apply huniq R h1 h2 h3 h3b
                intro p hp x hx
                exact (hsub2 p.1 p.2).subset (h4 p hp x hx)
              have hrec := ih sel _ S hspec hshape2 hne2 hdoms2 hSshape hSsolved hSdist
                hcont2 huniq2 (by omega)
              rw [hrec]
            · -- a wrong candidate: the branch cannot return a grid
              by_cases hres : (consistencyT (setCell g v.1 v.2 [value]) [v]).1
              · rw [if_pos hres]
                have hdist2 : PeerDistinct (consistencyT (setCell g v.1 v.2 [value]) [v]).2 := by
                  apply consistency_peerDistinct _ _ _ _ (branch_QInv hdist value)
                  rw [hres] at hcF
                  exact hcF
                rcases hrecres : searchF sel n (consistencyT (setCell g v.1 v.2 [value]) [v]).2
                  with _ | r2
                · exfalso
                  exact searchF_total n sel _ hspec hshape2 hne2 (by omega) hrecres
                · rcases r2 with _ | R2
                  · show tryVals (searchF sel n) g v rest = some (some S)
                    exact ihv (fun c hc => hvals c (List.mem_cons_of_mem value hc))
                      (by rcases List.mem_cons.mp hemem with h | h
                          · exact absurd h.symm hve
                          · exact h)
                  · exfalso
                    obtain ⟨hR2shape, hR2solved, hR2dist, hR2doms, hR2subl⟩ :=
                      searchF_sound n sel _ R2 (fun g2 v2 hs => (hspec.1 g2 v2 hs).1)
                        hshape2 hdoms2 hdist2 hrecres
                    have hcontgR2 : Contains g R2 := by
                      intro p hp x hx
                      exact (hsub2 p.1 p.2).subset ((hR2subl p.1 p.2).subset hx)
                    have hR2S : R2 = S := huniq R2 hR2shape hR2solved hR2dist hR2doms hcontgR2
                    have hR2v : cellD R2 v.1 v.2 = [value] := by
                      have hchain : List.Sublist (cellD R2 v.1 v.2) [value] := by
                        have h1 := (hR2subl v.1 v.2).trans
                          (consistency_sublist _ _ _ _ _ hcF v.1 v.2)
                        rw [hwr] at h1
                        exact h1
                      rcases List.sublist_singleton.mp hchain with hnil | hsingle
                      · exfalso
                        have := is_solved_iff.mp hR2solved v hvmem
                        rw [hnil] at this
                        exact absurd this (by simp)
                      · exact hsingle
                    rw [hR2S, he] at hR2v
                    exact hve (List.singleton_injective hR2v).symm
              · rw [if_neg hres]
                exact ihv (fun c hc => hvals c (List.mem_cons_of_mem value hc))
                  (by rcases List.mem_cons.mp hemem with h | h
                      · exact absurd h.symm hve
                      · exact h)
        exact hinner (cellD g v.1 v.2) (fun c hc => hc) heg

theorem flatMap_singleton_eq_map (g : Cells) :
    ∀ (ps : List (Nat × Nat)), (∀ p ∈ ps, ∃ c, cellD g p.1 p.2 = [c]) →
    unitChars g ps = ps.map (cellVal g) := by
  intro ps
  induction ps with
  | nil => intro _; rfl
  | cons q rest ih =>
    intro hall
    obtain ⟨c, hc⟩ := hall q (List.mem_cons_self _ _)
    unfold unitChars at ih ⊢
    rw [List.flatMap_cons, List.map_cons, hc]
    rw [ih (fun p hp => hall p (List.mem_cons_of_mem q hp))]
    unfold cellVal
    rw [hc]
    rfl

theorem sum_map_one {α : Type} : ∀ (l : List α), (l.map fun _ => 1).sum = l.length := by
  intro l
  induction l with
  | nil => rfl
  | cons a t ih =>
    simp only [List.map_cons, List.sum_cons, List.length_cons, ih]
    omega

/-- A solved, digit-only, peer-distinct unit of nine mutually constrained
cells holds each digit exactly once. -/
theorem unit_perm {g : Cells} (hsolved : is_solved g = true) (hsub : DomsSub g)
    (hdist : PeerDistinct g) {ps : List (Nat × Nat)} (hlen : ps.length = 9)
    (hnodup : ps.Nodup) (hmem : ∀ p ∈ ps, p ∈ allCoords)
    (hpeers : ∀ a ∈ ps, ∀ b ∈ ps, a ≠ b → Peers a b) :
    (unitChars g ps).Perm complete_domain := by
  have hsingle : ∀ p ∈ ps, ∃ c, cellD g p.1 p.2 = [c] := by
    intro p hp
    exact length_eq_one_iff.mp (is_solved_iff.mp hsolved p (hmem p hp))
  have heq := flatMap_singleton_eq_map g ps hsingle
  have hlen2 : (unitChars g ps).length = 9 := by
    rw [heq, List.length_map, hlen]
  have hinj : ∀ x ∈ ps, ∀ y ∈ ps, cellVal g x = cellVal g y → x = y := by
    intro x hx y hy hxy
    by_contra hne
    obtain ⟨cx, hcx⟩ := hsingle x hx
    obtain ⟨cy, hcy⟩ := hsingle y hy
    have hvx : cellVal g x = cx := by unfold cellVal; rw [hcx]; rfl
    have hvy : cellVal g y = cy := by unfold cellVal; rw [hcy]; rfl
    have hcxy : cx = cy := by rw [← hvx, ← hvy, hxy]
    have := hdist x (hmem x hx) y (hmem y hy) (hpeers x hx y hy hne) (by rw [hcx]; rfl)
    rw [hcx, hcy, hcxy] at this
    exact this rfl
  have hnodup2 : (unitChars g ps).Nodup := by
    rw [heq]
    exact hnodup.map_on hinj
  have hsubset : unitChars g ps ⊆ complete_domain := by
    intro x hx
    unfold unitChars at hx
    obtain ⟨p, hp, hxp⟩ := List.mem_flatMap.mp hx
    exact hsub p (hmem p hp) x hxp
  have hsubperm := List.subperm_of_subset hnodup2 hsubset
  apply hsubperm.perm_of_length_le
  rw [hlen2]
  rfl

theorem rowCoords_length (k : Nat) : (rowCoords k).length = 9 := by simp [rowCoords]

theorem colCoords_length (k : Nat) : (colCoords k).length = 9 := by simp [colCoords]

theorem boxCoords_length (k : Nat) : (boxCoords k).length = 9 := by
  simp [boxCoords, List.length_flatMap]
  rfl

theorem rowCoords_nodup (k : Nat) : (rowCoords k).Nodup := by
  unfold rowCoords
  apply List.Nodup.map
  · intro a b hab
    exact (Prod.mk.injEq _ _ _ _ ▸ hab).2
  · exact List.nodup_range 9

theorem colCoords_nodup (k : Nat) : (colCoords k).Nodup := by
  unfold colCoords
  apply List.Nodup.map
  · intro a b hab
    exact (Prod.mk.injEq _ _ _ _ ▸ hab).1
  · exact List.nodup_range 9

theorem boxCoords_nodup (k : Nat) : (boxCoords k).Nodup := by
  unfold boxCoords
  apply List.nodup_flatMap.mpr
  constructor
  · intro a _
    apply List.Nodup.map
    · intro x y hxy
      have := (Prod.mk.injEq _ _ _ _ ▸ hxy).2
      omega
    · exact List.nodup_range 3
  · rw [List.pairwise_iff_forall_sublist]
    intro a b hab
    have hane : a ≠ b := by
      have := hab.nodup (List.nodup_range 3)
      simp at this
      exact this
    intro x hxa hxb
    simp only [Function.onFun, List.mem_map, List.mem_range] at hxa hxb
    obtain ⟨u, _, hu⟩ := hxa
    obtain ⟨v2, _, hv2⟩ := hxb
    apply hane
    have h1 := (Prod.mk.injEq _ _ _ _ ▸ (hu.trans hv2.symm)).1
    omega

theorem mem_rowCoords_iff {k : Nat} {p : Nat × Nat} :
    p ∈ rowCoords k ↔ p.1 = k ∧ p.2 < 9 := by
  cases p with
  | mk a b =>
    simp only [rowCoords, List.mem_map, List.mem_range]
    constructor
    · rintro ⟨j, hj, he⟩
      obtain ⟨h1, h2⟩ := Prod.mk.injEq _ _ _ _ ▸ he
      exact ⟨h1.symm, h2 ▸ hj⟩
    · rintro ⟨h1, h2⟩
      exact ⟨b, h2, by rw [h1]⟩

theorem mem_colCoords_iff {k : Nat} {p : Nat × Nat} :
    p ∈ colCoords k ↔ p.2 = k ∧ p.1 < 9 := by
  cases p with
  | mk a b =>
    simp only [colCoords, List.mem_map, List.mem_range]
    constructor
    · rintro ⟨i, hi, he⟩
      obtain ⟨h1, h2⟩ := Prod.mk.injEq _ _ _ _ ▸ he
      exact ⟨h2.symm, h1 ▸ hi⟩
    · rintro ⟨h1, h2⟩
      exact ⟨a, h2, by rw [h1]⟩

theorem mem_boxCoords_iff {k : Nat} {p : Nat × Nat} :
    p ∈ boxCoords k ↔ ∃ a, a < 3 ∧ ∃ b, b < 3 ∧ p = (k / 3 * 3 + a, k % 3 * 3 + b) := by
  simp only [boxCoords, List.mem_flatMap, List.mem_map, List.mem_range]
  constructor
  · rintro ⟨a, ha, b, hb, he⟩
    exact ⟨a, ha, b, hb, he.symm⟩
  · rintro ⟨a, ha, b, hb, he⟩
    exact ⟨a, ha, b, hb, he.symm⟩

theorem rowCoords_mem_allCoords {k : Nat} (hk : k < 9) :
    ∀ p ∈ rowCoords k, p ∈ allCoords := by
  intro p hp
  obtain ⟨h1, h2⟩ := mem_rowCoords_iff.mp hp
  exact mem_allCoords.mpr ⟨h1 ▸ hk, h2⟩

theorem colCoords_mem_allCoords {k : Nat} (hk : k < 9) :
    ∀ p ∈ colCoords k, p ∈ allCoords := by
  intro p hp
  obtain ⟨h1, h2⟩ := mem_colCoords_iff.mp hp
  exact mem_allCoords.mpr ⟨h2, h1 ▸ hk⟩

theorem boxCoords_mem_allCoords {k : Nat} (hk : k < 9) :
    ∀ p ∈ boxCoords k, p ∈ allCoords := by
  intro p hp
  obtain ⟨a, ha, b, hb, he⟩ := mem_boxCoords_iff.mp hp
  subst he
  apply mem_allCoords.mpr
  constructor
  · simp only
    omega
  · simp only
    omega

theorem rowCoords_peers {k : Nat} : ∀ a ∈ rowCoords k, ∀ b ∈ rowCoords k, a ≠ b → Peers a b := by
  intro a ha b hb hne
  obtain ⟨ha1, _⟩ := mem_rowCoords_iff.mp ha
  obtain ⟨hb1, _⟩ := mem_rowCoords_iff.mp hb
  exact ⟨hne, Or.inl (ha1.trans hb1.symm)⟩

theorem colCoords_peers {k : Nat} : ∀ a ∈ colCoords k, ∀ b ∈ colCoords k, a ≠ b → Peers a b := by
  intro a ha b hb hne
  obtain ⟨ha1, _⟩ := mem_colCoords_iff.mp ha
  obtain ⟨hb1, _⟩ := mem_colCoords_iff.mp hb
  exact ⟨hne, Or.inr (Or.inl (ha1.trans hb1.symm))⟩

theorem boxCoords_peers {k : Nat} : ∀ a ∈ boxCoords k, ∀ b ∈ boxCoords k, a ≠ b → Peers a b := by
  intro a ha b hb hne
  obtain ⟨x1, hx1, y1, hy1, he1⟩ := mem_boxCoords_iff.mp ha
  obtain ⟨x2, hx2, y2, hy2, he2⟩ := mem_boxCoords_iff.mp hb
  subst he1
  subst he2
  refine ⟨hne, Or.inr (Or.inr ⟨?_, ?_⟩)⟩
  · simp only
    omega
  · simp only
    omega

/-- The soundness finale: a solved, digit-only, peer-distinct, well-shaped
grid is a valid Sudoku solution. -/
theorem solved_valid {g : Cells} (hsolved : is_solved g = true)
    (hsub : DomsSub g) (hdist : PeerDistinct g) : ValidSolved g := by
  refine ⟨hsolved, ?_⟩
  intro k hk
  refine ⟨?_, ?_, ?_⟩
  · exact unit_perm hsolved hsub hdist (rowCoords_length k) (rowCoords_nodup k)
      (rowCoords_mem_allCoords hk) rowCoords_peers
  · exact unit_perm hsolved hsub hdist (colCoords_length k) (colCoords_nodup k)
      (colCoords_mem_allCoords hk) colCoords_peers
  · exact unit_perm hsolved hsub hdist (boxCoords_length k) (boxCoords_nodup k)
      (boxCoords_mem_allCoords hk) boxCoords_peers

theorem unit_same_value_eq {g : Cells} (hsolved : is_solved g = true)
    {ps : List (Nat × Nat)} (hperm : (unitChars g ps).Perm complete_domain)
    (hmem : ∀ p ∈ ps, p ∈ allCoords) {a b : Nat × Nat} (ha : a ∈ ps) (hb : b ∈ ps)
    (heq : cellD g a.1 a.2 = cellD g b.1 b.2) : a = b := by
  have hsingle : ∀ p ∈ ps, ∃ c, cellD g p.1 p.2 = [c] := fun p hp =>
    length_eq_one_iff.mp (is_solved_iff.mp hsolved p (hmem p hp))
  have hmapeq := flatMap_singleton_eq_map g ps hsingle
  have hnodup : (unitChars g ps).Nodup := hperm.nodup_iff.mpr (by decide)
  rw [hmapeq] at hnodup
  have hinj := List.inj_on_of_nodup_map hnodup
  apply hinj ha hb
  unfold cellVal
  rw [heq]

/-- A valid solved grid has pairwise distinct peers. -/
theorem validSolved_peerDistinct {g : Cells} (hv : ValidSolved g) : PeerDistinct g := by
  obtain ⟨hsolved, hunits⟩ := hv
  intro a ha b hb hpeers hlen heq
  obtain ⟨hne, hsame⟩ := hpeers
  have ha9 := mem_allCoords.mp ha
  have hb9 := mem_allCoords.mp hb
  rcases hsame with hrow | hcol | hbox
  · have hk : a.1 < 9 := ha9.1
    have hmema : a ∈ rowCoords a.1 := mem_rowCoords_iff.mpr ⟨rfl, ha9.2⟩
    have hmemb : b ∈ rowCoords a.1 := mem_rowCoords_iff.mpr ⟨hrow.symm, hb9.2⟩
    exact hne (unit_same_value_eq hsolved (hunits a.1 hk).1
      (rowCoords_mem_allCoords hk) hmema hmemb heq)
  · have hk : a.2 < 9 := ha9.2
    have hmema : a ∈ colCoords a.2 := mem_colCoords_iff.mpr ⟨rfl, ha9.1⟩
    have hmemb : b ∈ colCoords a.2 := mem_colCoords_iff.mpr ⟨hcol.symm, hb9.1⟩
    exact hne (unit_same_value_eq hsolved (hunits a.2 hk).2.1
      (colCoords_mem_allCoords hk) hmema hmemb heq)
  · set k := a.1 / 3 * 3 + a.2 / 3 with hkdef
    have hk : k < 9 := by omega
    have hmema : a ∈ boxCoords k := by
      apply mem_boxCoords_iff.mpr
      refine ⟨a.1 % 3, by omega, a.2 % 3, by omega, ?_⟩
      apply Prod.ext
      · simp only
        omega
      · simp only
        omega
    have hmemb : b ∈ boxCoords k := by
      apply mem_boxCoords_iff.mpr
      refine ⟨b.1 % 3, by omega, b.2 % 3, by omega, ?_⟩
      apply Prod.ext
      · simp only
        have h1 := hbox.1
        omega
      · simp only
        have h2 := hbox.2
        omega
    exact hne (unit_same_value_eq hsolved (hunits k hk).2.2
      (boxCoords_mem_allCoords hk) hmema hmemb heq)

theorem readRow_append_lt {h : Heap} {extra : List (List Domain)} {rid : Nat}
    (hrid : rid < h.data.length) :
    readRow ⟨h.data ++ extra⟩ rid = readRow h rid := by
  unfold readRow
  simp only [List.getD_eq_getElem?_getD]
  rw [List.getElem?_append, if_pos hrid]

theorem agreesBelow_refl (n : Nat) (h : Heap) : agreesBelow n h h := fun _ _ => rfl

theorem agreesBelow_trans {n : Nat} {h1 h2 h3 : Heap} (a : agreesBelow n h1 h2)
    (b : agreesBelow n h2 h3) : agreesBelow n h1 h3 :=
  fun rid hrid => (b rid hrid).trans (a rid hrid)

/-- Reads through a grid whose row ids lie below the mark see no difference
between heaps agreeing below the mark. -/
theorem readCellH_agreesBelow {n : Nat} {h h2 : Heap} {g : PyGrid}
    (hagree : agreesBelow n h h2) (hg : ∀ rid ∈ g.rows, rid < n) (i j : Nat) :
    readCellH h2 g i j = readCellH h g i j := by
  unfold readCellH
  rcases hr : g.rows[i]? with _ | rid
  · rfl
  · simp only [Option.some_bind]
    rw [hagree rid (hg rid (by
      have := List.getElem?_mem hr
      exact this))]

/-- Writing through a grid whose row ids all sit at or above the mark leaves
everything below the mark untouched. -/
theorem writeCellH_agreesBelow {n : Nat} {h : Heap} {g : PyGrid}
    (hg : ∀ rid ∈ g.rows, n ≤ rid) (i j : Nat) (d : Domain) :
    agreesBelow n h (writeCellH h g i j d) := by
  unfold writeCellH
  rcases hr : g.rows[i]? with _ | rid
  · exact agreesBelow_refl n h
  · intro rid2 hrid2
    unfold readRow
    simp only [List.getD_eq_getElem?_getD]
    rw [List.getElem?_set_ne]
    intro he
    have hge : n ≤ rid := hg rid (List.getElem?_mem hr)
    omega

theorem applyWriteList_agreesBelow {n : Nat} :
    ∀ (ws : List (PyGrid × Nat × Nat × Domain)) (h : Heap),
    (∀ w ∈ ws, ∀ rid ∈ w.1.rows, n ≤ rid) →
    agreesBelow n h (applyWriteList h ws) := by
  intro ws
  induction ws with
  | nil => intro h _; exact agreesBelow_refl n h
  | cons w rest ih =>
    intro h hws
    apply agreesBelow_trans
      (writeCellH_agreesBelow (hws w (List.mem_cons_self _ _)) w.2.1 w.2.2.1 w.2.2.2)
    exact ih _ (fun w2 hw2 => hws w2 (List.mem_cons_of_mem w hw2))

theorem copyH_rows_fresh {h : Heap} {g : PyGrid} :
    ∀ rid ∈ (copyH h g).1.rows, h.data.length ≤ rid := by
  intro rid hrid
  unfold copyH at hrid
  simp only [List.mem_map, List.mem_range] at hrid
  obtain ⟨k, _, hk⟩ := hrid
  omega

theorem copyH_heap_agrees {h : Heap} {g : PyGrid} {n : Nat} (hn : n ≤ h.data.length) :
    agreesBelow n h (copyH h g).2 := by
  intro rid hrid
  exact readRow_append_lt (by omega)

/-- The copy reads back exactly the original's cells. -/
theorem copyH_read {h : Heap} {g : PyGrid} (hg : ValidG h g) (i j : Nat) :
    readCellH (copyH h g).2 (copyH h g).1 i j = readCellH h g i j := by
  unfold copyH readCellH
  simp only
  rcases hr : g.rows[i]? with _ | rid
  · have hlen : g.rows.length ≤ i := by
      by_contra hlt
      rw [List.getElem?_eq_getElem (by omega)] at hr
      exact absurd hr (by simp)
    have hmap : ((List.range g.rows.length).map fun k => k + h.data.length)[i]? = none :=
      List.getElem?_eq_none (by simpa using hlen)
    rw [hmap]
    rfl
  · have hi : i < g.rows.length := by
      by_contra hge
      rw [List.getElem?_eq_none (by omega)] at hr
      exact absurd hr (by simp)
    have hmap : ((List.range g.rows.length).map fun k => k + h.data.length)[i]? =
        some (i + h.data.length) := by
      rw [List.getElem?_map, List.getElem?_range hi]
      rfl
    rw [hmap]
    simp only [Option.some_bind]
    have hread : readRow ⟨h.data ++ g.rows.map (readRow h)⟩ (i + h.data.length) =
        readRow h rid := by
      unfold readRow
      simp only [List.getD_eq_getElem?_getD]
      rw [List.getElem?_append, if_neg (by omega)]
      have : i + h.data.length - h.data.length = i := by omega
      rw [this, List.getElem?_map]
      rw [List.getElem?_eq_getElem hi]
      have : g.rows[i] = rid := by
        rw [List.getElem?_eq_getElem hi] at hr
        exact Option.some_inj.mp hr
      rw [this]
      rfl
    rw [hread]

/-- Composite isolation: after a copy, one cell assignment through the copy
changes no readout of the original grid. -/
theorem copy_write_isolated {h : Heap} {g : PyGrid} (hg : ValidG h g) (i j : Nat)
    (d : Domain) (a b : Nat) :
    readCellH (writeCellH (copyH h g).2 (copyH h g).1 i j d) g a b = readCellH h g a b := by
  have h1 : agreesBelow h.data.length h (copyH h g).2 :=
    copyH_heap_agrees (Nat.le_refl _)
  have h2 : agreesBelow h.data.length (copyH h g).2
      (writeCellH (copyH h g).2 (copyH h g).1 i j d) :=
    writeCellH_agreesBelow copyH_rows_fresh i j d
  exact readCellH_agreesBelow (agreesBelow_trans h1 h2) hg a b

theorem getCellO_eq {g : Cells} (hg : Shape9 g) {p : Nat × Nat} (hp : p ∈ allCoords) :
    getCellO g p.1 p.2 = some (cellD g p.1 p.2) := by
  obtain ⟨h1, h2⟩ := mem_allCoords.mp hp
  unfold getCellO
  have hi : p.1 < g.length := by rw [hg.1]; exact h1
  rw [List.getElem?_eq_getElem hi]
  simp only [Option.some_bind]
  have hj : p.2 < (g[p.1]).length := by
    rw [hg.2 _ (List.getElem_mem hi)]
    exact h2
  rw [List.getElem?_eq_getElem hj]
  rw [cellD_eq_getElem?]
  rw [List.getElem?_eq_getElem hi]
  simp only [Option.getD_some]
  rw [List.getElem?_eq_getElem hj]
  rfl

theorem isSolvedGo_eq {g : Cells} (hg : Shape9 g) :
    ∀ l : List (Nat × Nat), (∀ p ∈ l, p ∈ allCoords) →
    isSolvedGo g l = some (l.all fun p => (cellD g p.1 p.2).length == 1) := by
  intro l
  induction l with
  | nil => intro _; rfl
  | cons p rest ih =>
    intro hmem
    rw [isSolvedGo]
    rw [getCellO_eq hg (hmem p (List.mem_cons_self _ _))]
    simp only
    by_cases hlen : (cellD g p.1 p.2).length = 1
    · rw [if_neg (by omega)]
      rw [ih (fun q hq => hmem q (List.mem_cons_of_mem p hq))]
      have : ((cellD g p.1 p.2).length == 1) = true := beq_iff_eq.mpr hlen
      rw [List.all_cons, this]
      rfl
    · rw [if_pos hlen]
      have : ((cellD g p.1 p.2).length == 1) = false := by
        rw [beq_eq_false_iff_ne]
        exact hlen
      rw [List.all_cons, this]
      rfl

theorem faGoO_eq {g : Cells} (hg : Shape9 g) :
    ∀ l : List (Nat × Nat), (∀ p ∈ l, p ∈ allCoords) →
    faGoO g l = some (faGo g l) := by
  intro l
  induction l with
  | nil => intro _; rfl
  | cons p rest ih =>
    intro hmem
    rw [faGoO, faGo]
    rw [getCellO_eq hg (hmem p (List.mem_cons_self _ _))]
    simp only
    by_cases hlen : 1 < (cellD g p.1 p.2).length
    · rw [if_pos hlen, if_pos hlen]
    · rw [if_neg hlen, if_neg hlen]
      exact ih (fun q hq => hmem q (List.mem_cons_of_mem p hq))

theorem mrvGoO_eq {g : Cells} (hg : Shape9 g) :
    ∀ (l : List (Nat × Nat)) (rv : Option Nat) (var : Option (Nat × Nat)),
    (∀ p ∈ l, p ∈ allCoords) →
    mrvGoO g l rv var = some (mrvGo g l rv var) := by
  intro l
  induction l with
  | nil => intro rv var _; rfl
  | cons p rest ih =>
    intro rv var hmem
    have hmemrest : ∀ q ∈ rest, q ∈ allCoords := fun q hq => hmem q (List.mem_cons_of_mem p hq)
    rcases rv with _ | r
    · rw [mrvGoO, mrvGo_cons_none]
      rw [getCellO_eq hg (hmem p (List.mem_cons_self _ _))]
      simp only
      by_cases hlen : 1 < (cellD g p.1 p.2).length
      · rw [if_pos hlen, if_pos hlen]
        exact ih _ _ hmemrest
      · rw [if_neg hlen, if_neg hlen]
        exact ih _ _ hmemrest
    · rw [mrvGoO, mrvGo_cons_some]
      rw [getCellO_eq hg (hmem p (List.mem_cons_self _ _))]
      simp only
      by_cases hlen : 1 < (cellD g p.1 p.2).length
      · rw [if_pos hlen, if_pos hlen]
        by_cases hlt : (cellD g p.1 p.2).length < r
        · rw [if_pos hlt, if_pos hlt]
          exact ih _ _ hmemrest
        · rw [if_neg hlt, if_neg hlt]
          exact ih _ _ hmemrest
      · rw [if_neg hlen, if_neg hlen]
        exact ih _ _ hmemrest

/-! ### The claims -/

/-- C1, counterexample to the claim as stated: `allOnesGrid` has 81 non-empty
digit-subset domains, `Backtracking.search` returns it unchanged (its
`is_solved` base case fires), yet no row, column or box holds each digit
exactly once. -/
theorem C1_counterexample :
    Shape9 allOnesGrid ∧ DomsNonempty allOnesGrid ∧ DomsSub allOnesGrid ∧
    searchT FirstAvailable.select_variable allOnesGrid = some allOnesGrid ∧
    ¬ ValidSolved allOnesGrid :=
  ⟨by decide, by decide, by decide, by decide, by decide⟩

/-- C1 (amended): for every 9×9 grid whose 81 cell domains are non-empty
subsets of the digits and in which no two peers already share the same
singleton domain, if `Backtracking.search` (with either provided selector)
returns a grid rather than `False`, then in the returned grid every domain is
a single digit and every row, column, and 3×3 box holds each digit exactly
once. -/
theorem C1_search_sound_amended (sel : Cells → Option (Nat × Nat)) (g R : Cells) (fuel : Nat)
    (hsel : sel = FirstAvailable.select_variable ∨ sel = MRV.select_variable)
    (hg : Shape9 g) (hne : DomsNonempty g) (hsub : DomsSub g) (hdist : PeerDistinct g)
    (hret : searchF sel fuel g = some (some R) ∨ searchT sel g = some R) :
    Shape9 R ∧ DomsSub R ∧ ValidSolved R := by
  have hselmem : ∀ g2 v, sel g2 = some v → v ∈ allCoords := by
    rcases hsel with h | h
    · subst h; exact fun g2 v hv => (firstAvailable_selSpec.1 g2 v hv).1
    · subst h; exact fun g2 v hv => (mrv_selSpec.1 g2 v hv).1
  have hform : ∃ f, searchF sel f g = some (some R) := by
    rcases hret with h | h
    · exact ⟨fuel, h⟩
    · unfold searchT at h
      rcases hres : searchF sel (totalExcess g + 1) g with _ | r
      · rw [hres] at h; exact absurd h (by simp)
      · rcases r with _ | R2
        · rw [hres] at h; exact absurd h (by simp)
        · rw [hres] at h
          simp only [Option.getD_some] at h
          exact ⟨totalExcess g + 1, by rw [hres, h]⟩
  obtain ⟨f, hf⟩ := hform
  obtain ⟨h1, h2, h3, h4, _⟩ := searchF_sound f sel g R hselmem hg hsub hdist hf
  exact ⟨h1, h4, solved_valid h2 h4 h3⟩

/-- C1 witness: the amended theorem applied to a concrete grid. -/
theorem C1_witness :
    Shape9 solvedDemo ∧ DomsNonempty solvedDemo ∧ DomsSub solvedDemo ∧
    PeerDistinct solvedDemo ∧
    searchT FirstAvailable.select_variable solvedDemo = some solvedDemo ∧
    (Shape9 solvedDemo ∧ DomsSub solvedDemo ∧ ValidSolved solvedDemo) :=
  ⟨by decide, by decide, by decide, by decide, by decide,
    C1_search_sound_amended FirstAvailable.select_variable solvedDemo solvedDemo 0
      (Or.inl rfl) (by decide) (by decide) (by decide) (by decide)
      (Or.inr (by decide))⟩

/-- C2, counterexample to the claim as stated: popping `(0, 1)` from
`twoOnesGrid` makes `remove_domain_row` report a contradiction, yet
`AC3.consistency` returns `False` — not the claimed contradiction
indicator `true`. -/
theorem C2_counterexample :
    (remove_domain_row twoOnesGrid 0 1).contradiction = true ∧
    (consistencyT twoOnesGrid [(0, 1)]).1 = false :=
  ⟨by decide, by decide⟩

/-- C2 (amended): `AC3.consistency` returns `False` — not `true` — as soon
as any of the three peer-removal operations applied to the popped coordinate
reports a contradiction, halting propagation at that point with the grid as
mutated so far; when the queue is exhausted without contradiction it returns
`True`.  (The returned Bool is a success flag, the negation of the spec's
contradiction indicator; the source docstring states the opposite of what
the code returns.) -/
theorem C2_consistency_return_sense (g : Cells) (Q : List (Nat × Nat)) (fuel : Nat)
    (hQ : Q ≠ []) :
    (stepContra g (Q.getLast hQ) = true →
      consistencyF (fuel + 1) g Q = some (false, stepCells g (Q.getLast hQ))) ∧
    (stepContra g (Q.getLast hQ) = false →
      consistencyF (fuel + 1) g Q =
        consistencyF fuel (stepCells g (Q.getLast hQ)) (stepQueue g (Q.getLast hQ) Q)) ∧
    consistencyF (fuel + 1) g [] = some (true, g) := by
  refine ⟨?_, ?_, consistencyF_succ_nil fuel g⟩
  · intro hc
    rw [consistencyF_succ fuel g Q hQ, if_pos hc]
  · intro hc
    rw [consistencyF_succ fuel g Q hQ, if_neg (by rw [hc]; exact Bool.false_ne_true)]

/-- C2 witness: the amended return-sense theorem at a concrete contradictory
pop. -/
theorem C2_witness :
    stepContra twoOnesGrid (0, 1) = true ∧
    consistencyF 6 twoOnesGrid [(0, 1)] = some (false, stepCells twoOnesGrid (0, 1)) :=
  ⟨by decide,
    (C2_consistency_return_sense twoOnesGrid [(0, 1)] 5 (by decide)).1 (by decide)⟩

theorem wf_of_sublist {g g2 : Cells} (hwf : GridWF g) (hshape : Shape9 g2)
    (hsub : ∀ i j, List.Sublist (cellD g2 i j) (cellD g i j))
    (hne : ∀ i j, cellD g2 i j = [] → cellD g i j = []) : GridWF g2 := by
  obtain ⟨_, hnonempty, hnodup, hdoms⟩ := hwf
  refine ⟨hshape, ?_, ?_, ?_⟩
  · intro p hp hnil
    exact hnonempty p hp (hne p.1 p.2 hnil)
  · intro p hp
    exact (hsub p.1 p.2).nodup (hnodup p hp)
  · intro p hp c hc
    exact hdoms p hp c ((hsub p.1 p.2).subset hc)

theorem tryVals_shape_sublist : ∀ (vals : List Char) (rec : Cells → Option (Option Cells))
    (g : Cells) (v : Nat × Nat) (R : Cells),
    Shape9 g → (∀ c ∈ vals, c ∈ cellD g v.1 v.2) →
    (∀ g2 R2, Shape9 g2 → rec g2 = some (some R2) →
      Shape9 R2 ∧ is_solved R2 = true ∧
        (∀ i j, List.Sublist (cellD R2 i j) (cellD g2 i j))) →
    tryVals rec g v vals = some (some R) →
    Shape9 R ∧ is_solved R = true ∧ (∀ i j, List.Sublist (cellD R i j) (cellD g i j)) := by
  intro vals
  induction vals with
  | nil =>
    intro rec g v R _ _ _ h
    rw [tryVals_nil] at h
    exact absurd (Option.some_inj.mp h) (by simp)
  | cons value rest ih =>
    intro rec g v R hg hvals hrec h
    have hgc : Shape9 (setCell g v.1 v.2 [value]) := Shape9_setCell hg v.1 v.2 [value]
    have hgcsub : ∀ i j,
        List.Sublist (cellD (setCell g v.1 v.2 [value]) i j) (cellD g i j) := by
      intro i j
      by_cases hij : i = v.1 ∧ j = v.2
      · rcases cellD_setCell_self_cases g v.1 v.2 [value] with hc | hc
        · rw [hij.1, hij.2, hc]
          exact List.singleton_sublist.mpr (hvals value (List.mem_cons_self _ _))
        · rw [hij.1, hij.2, hc]
      · rw [cellD_setCell_ne g v.1 v.2 i j _ hij]
    rw [tryVals_cons] at h
    by_cases hres : (consistencyT (setCell g v.1 v.2 [value]) [v]).1
    · rw [if_pos hres] at h
      have hcF := branch_consistency hg v value
      have hshape2 : Shape9 (consistencyT (setCell g v.1 v.2 [value]) [v]).2 :=
        consistency_shape9 _ _ _ _ _ hgc hcF
      have hsub2 : ∀ i j, List.Sublist
          (cellD (consistencyT (setCell g v.1 v.2 [value]) [v]).2 i j) (cellD g i j) :=
        fun i j => (consistency_sublist _ _ _ _ _ hcF i j).trans (hgcsub i j)
      rcases hrecres : rec (consistencyT (setCell g v.1 v.2 [value]) [v]).2 with _ | r2
      · rw [hrecres] at h
        exact absurd h (by simp)
      · rcases r2 with _ | R2
        · rw [hrecres] at h
          simp only at h
          exact ih rec g v R hg (fun c hc => hvals c (List.mem_cons_of_mem value hc)) hrec h
        · rw [hrecres] at h
          simp only at h
          have hRR2 : R2 = R := Option.some_inj.mp (Option.some_inj.mp h)
          subst hRR2
          obtain ⟨ha, hb, hc⟩ := hrec _ R2 hshape2 hrecres
          exact ⟨ha, hb, fun i j => (hc i j).trans (hsub2 i j)⟩
    · rw [if_neg hres] at h
      exact ih rec g v R hg (fun c hc => hvals c (List.mem_cons_of_mem value hc)) hrec h

theorem searchF_shape_sublist : ∀ (fuel : Nat) (sel : Cells → Option (Nat × Nat))
    (g R : Cells), Shape9 g → searchF sel fuel g = some (some R) →
    Shape9 R ∧ is_solved R = true ∧ (∀ i j, List.Sublist (cellD R i j) (cellD g i j)) := by
  intro fuel
  induction fuel with
  | zero =>
    intro sel g R _ h
    rw [searchF_zero] at h
    exact absurd h (by simp)
  | succ n ih =>
    intro sel g R hg h
    by_cases hsolved : is_solved g = true
    · rw [searchF_succ_solved sel n hsolved] at h
      have : g = R := Option.some_inj.mp (Option.some_inj.mp h)
      subst this
      exact ⟨hg, hsolved, fun i j => List.Sublist.refl _⟩
    · have hsf : is_solved g = false := Bool.not_eq_true _ ▸ hsolved
      rcases hsel : sel g with _ | v
      · rw [searchF_succ_selnone n hsf hsel] at h
        exact absurd h (by simp)
      · rw [searchF_succ_selsome n hsf hsel] at h
        exact tryVals_shape_sublist (cellD g v.1 v.2) (searchF sel n) g v R hg
          (fun c hc => hc) (fun g2 R2 h1 h2 => ih sel g2 R2 h1 h2) h

/-- C3: the three removal operations, `consistency` (on any queue and any
outcome, contradiction included), `pre_process_consistency`, and `search`
all preserve the invariant that every stored domain is a non-empty,
duplicate-free subset of `{1..9}` on a 9×9 grid; propagation never grows any
domain (every resulting domain is a sublist of the original, so domain sizes
are monotonically non-increasing and no digit is ever gained); and an empty
domain is never stored — emptying a domain aborts the removal instead. -/
theorem C3_invariants (g : Cells) (hwf : GridWF g) :
    (∀ row column,
      (GridWF (remove_domain_row g row column).cells ∧
        ∀ i j, List.Sublist (cellD (remove_domain_row g row column).cells i j) (cellD g i j)) ∧
      (GridWF (remove_domain_column g row column).cells ∧
        ∀ i j, List.Sublist (cellD (remove_domain_column g row column).cells i j) (cellD g i j)) ∧
      (GridWF (remove_domain_unit g row column).cells ∧
        ∀ i j, List.Sublist (cellD (remove_domain_unit g row column).cells i j) (cellD g i j))) ∧
    (∀ fuel Q b g2, consistencyF fuel g Q = some (b, g2) →
      GridWF g2 ∧ ∀ i j, List.Sublist (cellD g2 i j) (cellD g i j)) ∧
    (∀ b g2, pre_process_consistency g = (b, g2) →
      GridWF g2 ∧ ∀ i j, List.Sublist (cellD g2 i j) (cellD g i j)) ∧
    (∀ sel fuel R, searchF sel fuel g = some (some R) → GridWF R) := by
  have hg := hwf.1
  refine ⟨?_, ?_, ?_, ?_⟩
  · intro row column
    refine ⟨⟨?_, ?_⟩, ⟨?_, ?_⟩, ⟨?_, ?_⟩⟩
    · exact wf_of_sublist hwf (removeFrom_shape9 _ _ _ _ hg)
        (removeFrom_sublist _ _ _ _) (removeFrom_nonempty _ _ _ _)
    · exact removeFrom_sublist _ _ _ _
    · exact wf_of_sublist hwf (removeFrom_shape9 _ _ _ _ hg)
        (removeFrom_sublist _ _ _ _) (removeFrom_nonempty _ _ _ _)
    · exact removeFrom_sublist _ _ _ _
    · exact wf_of_sublist hwf (removeFrom_shape9 _ _ _ _ hg)
        (removeFrom_sublist _ _ _ _) (removeFrom_nonempty _ _ _ _)
    · exact removeFrom_sublist _ _ _ _
  · intro fuel Q b g2 h
    exact ⟨wf_of_sublist hwf (consistency_shape9 fuel g Q b g2 hg h)
      (consistency_sublist fuel g Q b g2 h) (consistency_nonempty fuel g Q b g2 h),
      consistency_sublist fuel g Q b g2 h⟩
  · intro b g2 h
    have hF : consistencyF (consistencyBound g (initialQ g)) g (initialQ g) = some (b, g2) := by
      have := consistencyT_eq hg (initialQ g)
      unfold pre_process_consistency at h
      rw [h] at this
      exact this
    exact ⟨wf_of_sublist hwf (consistency_shape9 _ _ _ b g2 hg hF)
      (consistency_sublist _ _ _ b g2 hF) (consistency_nonempty _ _ _ b g2 hF),
      consistency_sublist _ _ _ b g2 hF⟩
  · intro sel fuel R h
    obtain ⟨hshape, hsolved, hsub⟩ := searchF_shape_sublist fuel sel g R hg h
    refine wf_of_sublist hwf hshape hsub ?_
    intro i j hnil
    by_cases hij : (i, j) ∈ allCoords
    · have := is_solved_iff.mp hsolved (i, j) hij
      rw [hnil] at this
      exact absurd this (by simp)
    · have h9 : ¬(i < 9 ∧ j < 9) := fun hc => hij (mem_allCoords.mpr hc)
      by_cases hi : i < 9
      · exact cellD_outside_col hg i (by omega)
      · exact cellD_outside_row hg (by omega) j

/-- C3 witness: the invariant theorem applied to a concrete well-formed
grid. -/
theorem C3_witness :
    GridWF twoOnesGrid ∧ GridWF (remove_domain_row twoOnesGrid 0 0).cells :=
  ⟨by decide, ((C3_invariants twoOnesGrid (by decide)).1 0 0).1.1⟩

/-- C4: for a grid and cell `(row, column)` with a singleton domain, each of
`remove_domain_row` / `_column` / `_unit` (their peer scans are `rowPeers`,
`colPeers`, `unitPeers`) behaves as follows.  If some peer's domain would be
emptied, it returns `contradiction = true` immediately: the scan splits as
`L1 ++ p :: L2` where the prefix `L1` was processed and keeps its reduced
domains (no rollback), `p` is the peer that would be emptied, and neither `p`
nor any later peer is mutated.  Otherwise it returns `contradiction = false`,
every peer holds its reduced domain, and `assigned` lists exactly the peers
whose domain dropped from more than one element to exactly one in this
call. -/
theorem C4_removal_spec (g : Cells) (row column : Nat) (L : List (Nat × Nat))
    (hone : (cellD g row column).length = 1)
    (hL : L = rowPeers row column ∨ L = colPeers row column ∨ L = unitPeers row column) :
    ((removeFrom g row column L).contradiction = true →
      (removeFrom g row column L).assigned = none ∧
      ∃ L1 p L2, L = L1 ++ p :: L2 ∧
        (removeFrom g row column L1).contradiction = false ∧
        (removeFrom g row column L).cells = (removeFrom g row column L1).cells ∧
        pyReplace (cellD (removeFrom g row column L).cells p.1 p.2)
          (cellD (removeFrom g row column L).cells row column) = [] ∧
        (∀ q ∈ L1, cellD (removeFrom g row column L).cells q.1 q.2 =
            pyReplace (cellD g q.1 q.2) (cellD g row column)) ∧
        (∀ q ∈ p :: L2, cellD (removeFrom g row column L).cells q.1 q.2 =
            cellD g q.1 q.2)) ∧
    ((removeFrom g row column L).contradiction = false →
      (∀ p ∈ L, cellD (removeFrom g row column L).cells p.1 p.2 =
          pyReplace (cellD g p.1 p.2) (cellD g row column)) ∧
      (removeFrom g row column L).assigned =
        some (L.filter fun p =>
          ((pyReplace (cellD g p.1 p.2) (cellD g row column)).length == 1 &&
            decide (1 < (cellD g p.1 p.2).length)))) := by
  have hnodup : L.Nodup := by
    rcases hL with h | h | h
    · rw [h]; exact rowPeers_nodup row column
    · rw [h]; exact colPeers_nodup row column
    · rw [h]; exact unitPeers_nodup row column
  have hnm : (row, column) ∉ L := by
    rcases hL with h | h | h
    · rw [h]; exact self_not_mem_rowPeers row column
    · rw [h]; exact self_not_mem_colPeers row column
    · rw [h]; exact self_not_mem_unitPeers row column
  exact ⟨fun hc => removeFrom_contra_spec L g row column hnodup hnm hc,
    fun hc => removeFrom_success_spec L g row column hnodup hnm hc⟩

/-- C4 witness: on the concrete grid whose first two row cells both hold
`"1"`, the row removal short-circuits with a contradiction and no assigned
list. -/
theorem C4_witness :
    (cellD twoOnesGrid 0 0).length = 1 ∧
    (remove_domain_row twoOnesGrid 0 0).contradiction = true ∧
    (remove_domain_row twoOnesGrid 0 0).assigned = none :=
  ⟨by decide, by decide,
    ((C4_removal_spec twoOnesGrid 0 0 (rowPeers 0 0) (by decide) (Or.inl rfl)).1
      (by decide)).1⟩

/-- C5: on every 9×9 grid whose domains are non-empty subsets of the digits
and for every finite queue, `consistency` terminates: the explicit fuel
`Q.length + totalExcess g + 1` — initial queue length plus, for each cell,
its domain size minus one, which bounds how often a cell can newly become a
singleton over the loop's lifetime — already returns a result, and every
larger fuel returns the same result. -/
theorem C5_consistency_terminates (g : Cells) (Q : List (Nat × Nat))
    (hg : Shape9 g) (hne : DomsNonempty g) (hsub : DomsSub g) :
    consistencyF (Q.length + totalExcess g + 1) g Q = some (consistencyT g Q) ∧
    ∀ fuel, Q.length + totalExcess g < fuel →
      consistencyF fuel g Q = some (consistencyT g Q) := by
  have hbound : consistencyBound g Q = Q.length + totalExcess g + 1 := rfl
  refine ⟨?_, ?_⟩
  · rw [← hbound]
    exact consistencyT_eq hg Q
  · intro fuel hfuel
    apply consistencyF_mono (consistencyBound g Q) fuel g Q (consistencyT g Q)
    · rw [hbound]; omega
    · exact consistencyT_eq hg Q

/-- C5 witness: the termination theorem applied to a concrete grid and
queue. -/
theorem C5_witness :
    Shape9 twoOnesGrid ∧ DomsNonempty twoOnesGrid ∧ DomsSub twoOnesGrid ∧
    consistencyF ([((0 : Nat), (0 : Nat))].length + totalExcess twoOnesGrid + 1)
        twoOnesGrid [(0, 0)] = some (consistencyT twoOnesGrid [(0, 0)]) :=
  ⟨by decide, by decide, by decide,
    (C5_consistency_terminates twoOnesGrid [(0, 0)] (by decide) (by decide) (by decide)).1⟩

/-- C6: in the heap model of Python aliasing, `Grid.copy` allocates fresh row
objects holding the same domains, so (1) the copy reads back exactly the
original's cells, (2) one cell assignment through the copy changes no readout
of the original, (3) any sequence of writes through grids made of
freshly-allocated rows — the trial copy and every deeper copy the recursion
makes — leaves every readout of the parent grid unchanged, and (4) the
discarded `str.replace` call after a failed candidate leaves the heap
exactly as it was. -/
theorem C6_copy_isolated (h : Heap) (g : PyGrid) (hg : ValidG h g) :
    (∀ i j, readCellH (copyH h g).2 (copyH h g).1 i j = readCellH h g i j) ∧
    (∀ i j d a b,
      readCellH (writeCellH (copyH h g).2 (copyH h g).1 i j d) g a b =
        readCellH h g a b) ∧
    (∀ ws, (∀ w ∈ ws, ∀ rid ∈ w.1.rows, h.data.length ≤ rid) →
      ∀ a b, readCellH (applyWriteList (copyH h g).2 ws) g a b = readCellH h g a b) ∧
    (∀ i j value, (failedCandidateLine h g i j value).2 = h) := by
  refine ⟨copyH_read hg, copy_write_isolated hg, ?_, fun i j value => rfl⟩
  intro ws hws a b
  have h1 : agreesBelow h.data.length h (copyH h g).2 :=
    copyH_heap_agrees (Nat.le_refl _)
  have h2 : agreesBelow h.data.length (copyH h g).2 (applyWriteList (copyH h g).2 ws) :=
    applyWriteList_agreesBelow ws _ hws
  exact readCellH_agreesBelow (agreesBelow_trans h1 h2) hg a b

/-- C6 witness: on a concrete two-row heap, writing through the copy does not
change the original's readout, and the copy reads back the original. -/
theorem C6_witness :
    ValidG h0 g0 ∧
    readCellH (writeCellH (copyH h0 g0).2 (copyH h0 g0).1 0 0 [
      Char.ofNat 57]) g0 0 0 = readCellH h0 g0 0 0 ∧
    readCellH (copyH h0 g0).2 (copyH h0 g0).1 1 0 = readCellH h0 g0 1 0 :=
  ⟨by decide, (C6_copy_isolated h0 g0 (by decide)).2.1 0 0 [Char.ofNat 57] 0 0,
    (C6_copy_isolated h0 g0 (by decide)).1 1 0⟩

theorem sublist_singleton_of_ne_nil {l : List Char} {c : Char}
    (hsub : List.Sublist l [c]) (hne : l ≠ []) : l = [c] := by
  rcases l with _ | ⟨x, xs⟩
  · exact absurd rfl hne
  · have hx : x = c := List.mem_singleton.mp (hsub.subset (List.mem_cons_self x xs))
    have hlen : xs.length + 1 ≤ 1 := by
      have := hsub.length_le
      simpa using this
    have hxs : xs = [] := List.eq_nil_of_length_eq_zero (by omega)
    rw [hx, hxs]

theorem initialQ_QInv (g : Cells) : QInv g (initialQ g) := by
  intro a ha b hb hpeers hlen heq
  left
  exact List.mem_filter.mpr ⟨ha, by simp [hlen]⟩

/-- C7: on any initial 9×9 grid in which two distinct cells of the same row
both hold the same singleton domain, `pre_process_consistency` returns
failure (`false`), so the driver never starts a search on such a grid. -/
theorem C7_preprocess_detects_row_clash (g : Cells) (hg : Shape9 g)
    (a b : Nat × Nat) (ha : a ∈ allCoords) (hb : b ∈ allCoords)
    (hrow : a.1 = b.1) (hab : a ≠ b) (c : Char)
    (hca : cellD g a.1 a.2 = [c]) (hcb : cellD g b.1 b.2 = [c]) :
    (pre_process_consistency g).1 = false := by
  by_contra htrue
  have htrue2 : (pre_process_consistency g).1 = true := by
    rcases hres : (pre_process_consistency g).1
    · exact absurd hres htrue
    · rfl
  have hF : consistencyF (consistencyBound g (initialQ g)) g (initialQ g) =
      some ((pre_process_consistency g).1, (pre_process_consistency g).2) := by
    rw [consistencyT_eq hg (initialQ g)]
    rfl
  rw [htrue2] at hF
  have hdist : PeerDistinct (pre_process_consistency g).2 :=
    consistency_peerDistinct _ _ _ _ (initialQ_QInv g) hF
  have hea : cellD (pre_process_consistency g).2 a.1 a.2 = [c] := by
    apply sublist_singleton_of_ne_nil
    · rw [← hca]
      exact consistency_sublist _ _ _ _ _ hF a.1 a.2
    · intro hnil
      have := consistency_nonempty _ _ _ _ _ hF a.1 a.2 hnil
      rw [hca] at this
      exact absurd this (by simp)
  have heb : cellD (pre_process_consistency g).2 b.1 b.2 = [c] := by
    apply sublist_singleton_of_ne_nil
    · rw [← hcb]
      exact consistency_sublist _ _ _ _ _ hF b.1 b.2
    · intro hnil
      have := consistency_nonempty _ _ _ _ _ hF b.1 b.2 hnil
      rw [hcb] at this
      exact absurd this (by simp)
  exact hdist a ha b hb ⟨hab, Or.inl hrow⟩ (by rw [hea]; rfl) (by rw [hea, heb])

/-- C7 witness: preprocessing rejects the concrete grid whose first two row
cells both hold `"1"`. -/
theorem C7_witness :
    Shape9 twoOnesGrid ∧ cellD twoOnesGrid 0 0 = cellD twoOnesGrid 0 1 ∧
    (cellD twoOnesGrid 0 0).length = 1 ∧
    (pre_process_consistency twoOnesGrid).1 = false :=
  ⟨by decide, by decide, by decide,
    C7_preprocess_detects_row_clash twoOnesGrid (by decide) (0, 0) (0, 1)
      (by decide) (by decide) rfl (by decide) (Char.ofNat 49) (by decide) (by decide)⟩

/-- Containment in an already-solved grid forces equality: each domain of the
solved grid is a singleton, so a solved refinement holds the same
singletons. -/
theorem solved_contains_eq {g R : Cells} (hg : Shape9 g)
    (hgsolved : is_solved g = true) (hR : Shape9 R) (hRsolved : is_solved R = true)
    (hcont : Contains g R) : R = g := by
  apply cells_ext hR hg
  intro i j hi hj
  have hp : ((i, j) : Nat × Nat) ∈ allCoords := mem_allCoords.mpr ⟨hi, hj⟩
  have h1 := is_solved_iff.mp hgsolved (i, j) hp
  have h2 := is_solved_iff.mp hRsolved (i, j) hp
  obtain ⟨c, hc⟩ := length_eq_one_iff.mp h1
  obtain ⟨d, hd⟩ := length_eq_one_iff.mp h2
  have hmem : d ∈ cellD g i j :=
    hcont (i, j) hp d (by rw [hd]; exact List.mem_singleton_self d)
  rw [hc] at hmem
  rw [hd, hc, List.mem_singleton.mp hmem]

/-- C8: on any well-formed initial grid that contains exactly one solved
peer-distinct grid extending its givens and whose preprocessing succeeds,
`Backtracking.search` with the FirstAvailable selector and with the MRV
selector return the same solved grid, namely that unique solution. -/
theorem C8_selector_equivalence (g S : Cells)
    (hg : Shape9 g) (hne : DomsNonempty g) (hsub : DomsSub g)
    (hSshape : Shape9 S) (hSsolved : is_solved S = true) (hSdist : PeerDistinct S)
    (hcont : Contains g S)
    (huniq : ∀ R, Shape9 R → is_solved R = true → PeerDistinct R → DomsSub R →
      Contains g R → R = S)
    (hpre : (pre_process_consistency g).1 = true) :
    searchT FirstAvailable.select_variable g = some S ∧
    searchT MRV.select_variable g = some S := by
  have h1 := searchF_complete (totalExcess g + 1) FirstAvailable.select_variable g S
    firstAvailable_selSpec hg hne hsub hSshape hSsolved hSdist hcont huniq
    (Nat.lt_succ_self _)
  have h2 := searchF_complete (totalExcess g + 1) MRV.select_variable g S
    mrv_selSpec hg hne hsub hSshape hSsolved hSdist hcont huniq (Nat.lt_succ_self _)
  unfold searchT
  rw [h1, h2]
  exact ⟨rfl, rfl⟩

/-- C8 witness: a concrete already-solved valid grid is its own unique
refinement; preprocessing succeeds on it and both selectors return it. -/
theorem C8_witness :
    Shape9 solvedDemo ∧ (pre_process_consistency solvedDemo).1 = true ∧
    searchT FirstAvailable.select_variable solvedDemo = some solvedDemo ∧
    searchT MRV.select_variable solvedDemo = some solvedDemo := by
  have h := C8_selector_equivalence solvedDemo solvedDemo (by decide) (by decide)
    (by decide) (by decide) (by decide) (by decide) (by decide)
    (fun R h1 h2 h3 h4 h5 => solved_contains_eq (by decide) (by decide) h1 h2 h5)
    (by decide)
  exact ⟨by decide, by decide, h.1, h.2⟩

/-- C9: on every 9×9 grid whose 81 stored domains are non-empty, if
`is_solved` returns `false` then both `FirstAvailable.select_variable` and
`MRV.select_variable` return some coordinate — never `None` — so the
absent-selection branch of `Backtracking.search` is unreachable and the
search (run with sufficient fuel) never returns the fuel-exhaustion /
absent-subscript outcome `none` with either selector. -/
theorem C9_selector_never_none (g : Cells) (hg : Shape9 g) (hne : DomsNonempty g)
    (hunsolved : is_solved g = false) :
    (FirstAvailable.select_variable g).isSome ∧ (MRV.select_variable g).isSome ∧
    ∀ sel fuel, sel = FirstAvailable.select_variable ∨ sel = MRV.select_variable →
      totalExcess g < fuel → searchF sel fuel g ≠ none := by
  refine ⟨firstAvailable_selSpec.2 g hg hne hunsolved,
    mrv_selSpec.2 g hg hne hunsolved, ?_⟩
  intro sel fuel hsel hfuel
  rcases hsel with h | h
  · rw [h]
    exact searchF_total fuel _ g firstAvailable_selSpec hg hne hfuel
  · rw [h]
    exact searchF_total fuel _ g mrv_selSpec hg hne hfuel

/-- C9 witness: a concrete unsolved grid with non-empty domains on which the
FirstAvailable selector returns a coordinate. -/
theorem C9_witness :
    Shape9 twoOnesGrid ∧ DomsNonempty twoOnesGrid ∧
    is_solved twoOnesGrid = false ∧ (FirstAvailable.select_variable twoOnesGrid).isSome :=
  ⟨by decide, by decide, by decide,
    (C9_selector_never_none twoOnesGrid (by decide) (by decide) (by decide)).1⟩

/-- C10: on a freshly constructed grid (empty cell matrix), the partial
renderings of `is_solved` and of both selectors — which subscript
`self._cells[i][j]` exactly as the Python loops do — yield `none`
(the `IndexError` outcome); and under the precondition that the matrix holds
9 rows of 9 domains they are total, agreeing with the total renderings. -/
theorem C10_populated_precondition :
    is_solvedO init_cells = none ∧
    select_variableO_fa init_cells = none ∧
    select_variableO_mrv init_cells = none ∧
    (∀ g, Shape9 g →
      is_solvedO g = some (is_solved g) ∧
      select_variableO_fa g = some (FirstAvailable.select_variable g) ∧
      select_variableO_mrv g = some (MRV.select_variable g)) := by
  refine ⟨by decide, by decide, by decide, ?_⟩
  intro g hg
  refine ⟨?_, ?_, ?_⟩
  · exact isSolvedGo_eq hg allCoords (fun p hp => hp)
  · exact faGoO_eq hg allCoords (fun p hp => hp)
  · exact mrvGoO_eq hg allCoords none none (fun p hp => hp)

/-- C10 witness: the totality half applied at a concrete 9×9 grid. -/
theorem C10_witness :
    Shape9 allOnesGrid ∧ is_solvedO allOnesGrid = some (is_solved allOnesGrid) :=
  ⟨by decide, (C10_populated_precondition.2.2.2 allOnesGrid (by decide)).1⟩
